import Mathlib

/-!
Verification development for the go-utils password hashing subsystem:
the PHC string codec (package phc) and the argon2id hasher layer
(package argon2). The Go sources are shallowly embedded: strings are
List Char, byte slices are List Nat (each element < 256 where it
matters), fallible functions return Except or Option, and the external
memory-hard KDF (golang.org/x/crypto/argon2.IDKey) is an opaque
function parameter.
-/

deriving instance DecidableEq for Except

namespace Phc

/-- Character class of the regex id group: matches the regex class
identified by lowercase letters, digits and hyphen (ASCII 97-122,
48-57, 45). -/
def isIdChar (c : Char) : Bool :=
  (97 ≤ c.toNat && c.toNat ≤ 122) || (48 ≤ c.toNat && c.toNat ≤ 57) || c.toNat = 45

/-- Digit character class of the regex version group (ASCII 48-57). -/
def isDigitChar (c : Char) : Bool :=
  48 ≤ c.toNat && c.toNat ≤ 57

/-- Extended base64 character class used by the regex for parameter
values and for the salt and hash segments: letters, digits, slash,
plus, dot, hyphen. -/
def isValueChar (c : Char) : Bool :=
  (97 ≤ c.toNat && c.toNat ≤ 122) || (65 ≤ c.toNat && c.toNat ≤ 90) ||
  (48 ≤ c.toNat && c.toNat ≤ 57) || c.toNat = 47 || c.toNat = 43 ||
  c.toNat = 46 || c.toNat = 45

/-- Standard (unpadded) base64 alphabet: letters, digits, plus, slash. -/
def isB64Char (c : Char) : Bool :=
  (65 ≤ c.toNat && c.toNat ≤ 90) || (97 ≤ c.toNat && c.toNat ≤ 122) ||
  (48 ≤ c.toNat && c.toNat ≤ 57) || c.toNat = 43 || c.toNat = 47

/-- Split a character list at every occurrence of the separator,
mirroring strings.Split from the Go standard library: the result is
always nonempty, separators are consumed, and adjacent separators
produce empty fields. -/
def splitOn (sep : Char) : List Char → List (List Char)
  | [] => [[]]
  | c :: cs =>
    if c = sep then
      [] :: splitOn sep cs
    else
      match splitOn sep cs with
      | s :: ss => (c :: s) :: ss
      | [] => [[c]]

/-- Inverse of splitOn: interleave the separator back between fields
(strings.Join with a one-character separator). -/
def joinWith (sep : Char) : List (List Char) → List Char
  | [] => []
  | [s] => s
  | s :: t :: ss => s ++ sep :: joinWith sep (t :: ss)

/-- Index of a character in the standard base64 alphabet, as in the
decode map of encoding/base64 for StdEncoding. -/
def b64idx (c : Char) : Option Nat :=
  if 65 ≤ c.toNat ∧ c.toNat ≤ 90 then some (c.toNat - 65)
  else if 97 ≤ c.toNat ∧ c.toNat ≤ 122 then some (c.toNat - 97 + 26)
  else if 48 ≤ c.toNat ∧ c.toNat ≤ 57 then some (c.toNat - 48 + 52)
  else if c.toNat = 43 then some 62
  else if c.toNat = 47 then some 63
  else none

/-- Character of the standard base64 alphabet at a given six-bit index. -/
def b64alpha (i : Nat) : Char :=
  if i < 26 then Char.ofNat (65 + i)
  else if i < 52 then Char.ofNat (97 + (i - 26))
  else if i < 62 then Char.ofNat (48 + (i - 52))
  else if i = 62 then '+'
  else '/'

/-- base64.RawStdEncoding.DecodeString: unpadded standard base64.
Total input length 1 mod 4 is corrupt; a final quantum of two or three
characters decodes to one or two bytes. As in Go's default (non
strict) mode, unused trailing bits of the final quantum are discarded,
not required to be zero. -/
def b64decode : List Char → Option (List Nat)
  | [] => some []
  | [_] => none
  | [a, b] =>
    match b64idx a, b64idx b with
    | some ia, some ib => some [ia * 4 + ib / 16]
    | _, _ => none
  | [a, b, c] =>
    match b64idx a, b64idx b, b64idx c with
    | some ia, some ib, some ic => some [ia * 4 + ib / 16, ib % 16 * 16 + ic / 4]
    | _, _, _ => none
  | a :: b :: c :: d :: rest =>
    match b64idx a, b64idx b, b64idx c, b64idx d, b64decode rest with
    | some ia, some ib, some ic, some id, some bs =>
      some ((ia * 4 + ib / 16) :: (ib % 16 * 16 + ic / 4) :: (ic % 4 * 64 + id) :: bs)
    | _, _, _, _, _ => none

/-- base64.RawStdEncoding.EncodeToString: unpadded standard base64
encoding, three bytes to four characters, with a shortened final
quantum and no padding characters. -/
def b64encode : List Nat → List Char
  | [] => []
  | [x] => [b64alpha (x / 4), b64alpha (x % 4 * 16)]
  | [x, y] => [b64alpha (x / 4), b64alpha (x % 4 * 16 + y / 16), b64alpha (y % 16 * 4)]
  | x :: y :: z :: rest =>
    b64alpha (x / 4) :: b64alpha (x % 4 * 16 + y / 16) ::
    b64alpha (y % 16 * 4 + z / 64) :: b64alpha (z % 64) :: b64encode rest

/-- One name=value pair of the PHC parameter list (type phc.Parameter). -/
structure Parameter where
  Name : List Char
  Value : List Char
deriving DecidableEq, Repr

/-- The parsed PHC record (type phc.Format): identifier, optional
version, ordered parameter list, decoded salt bytes, decoded hash
bytes. Absent string fields are the empty list, absent byte fields the
empty list, exactly as Go zero values. -/
structure Format where
  ID : List Char
  Version : List Char
  Params : List Parameter
  Salt : List Nat
  Hash : List Nat
deriving DecidableEq, Repr

/-- The five capture groups of the anchored phc regex, empty when the
corresponding optional group did not participate in the match. The
version field holds the captured digits (submatch 2), without the
literal v= that precedes them in the segment. -/
structure Groups where
  id : List Char
  version : List Char
  params : List Char
  salt : List Char
  hash : List Char
deriving DecidableEq, Repr

/-- Whole-segment test for the regex id group: one to thirty-two
characters of the id class. -/
def idOK (s : List Char) : Bool :=
  !s.isEmpty && s.length ≤ 32 && s.all isIdChar

/-- Whole-segment test for the version group: the literal characters
v= followed by one or more digits; returns the captured digits. -/
def versionSegParse (s : List Char) : Option (List Char) :=
  match s with
  | a :: b :: ds =>
    if a == 'v' && b == '=' && !ds.isEmpty && ds.all isDigitChar then some ds else none
  | _ => none

/-- Whole test for one name=value pair of the parameter segment:
exactly one equals sign, nonempty name over the id class, nonempty
value over the extended base64 class. -/
def paramOK (part : List Char) : Bool :=
  match splitOn '=' part with
  | [n, v] => !n.isEmpty && n.all isIdChar && !v.isEmpty && v.all isValueChar
  | _ => false

/-- Whole-segment test for the parameter group: a nonempty
comma-separated list of name=value pairs. An empty segment fails
because its single field fails paramOK. -/
def paramsSegOK (s : List Char) : Bool :=
  (splitOn ',' s).all paramOK

/-- Whole-segment test for the salt and hash groups: one or more
characters of the extended base64 class. -/
def b64SegOK (s : List Char) : Bool :=
  !s.isEmpty && s.all isValueChar

/-- Version-group step of the match: the group participates exactly
when the next dollar-delimited segment is literally v= followed by
digits only. The regex engine is leftmost-first, but taking the group
whenever the whole segment matches is equivalent: if taking it lets
the remaining segments fail, then skipping it fails too, because the
same segment read as a parameter list only shrinks what the rest may
match. -/
def takeVersion (segs : List (List Char)) : List Char × List (List Char) :=
  match segs with
  | [] => ([], [])
  | s :: r =>
    match versionSegParse s with
    | some ds => (ds, r)
    | none => ([], s :: r)

/-- Parameter-group step of the match: the group participates exactly
when the next segment is a well-formed comma list. Greedy acceptance
is again equivalent to leftmost-first: a segment containing an equals
sign can never instead match the salt group, whose class excludes the
equals sign. -/
def takeParams (segs : List (List Char)) : List Char × List (List Char) :=
  match segs with
  | [] => ([], [])
  | s :: r => if paramsSegOK s then (s, r) else ([], s :: r)

/-- Salt and hash groups: zero remaining segments match the absent
group, one segment is the salt, two segments are salt then hash, and
anything else fails the anchored regex. -/
def matchSaltHash (segs : List (List Char)) : Option (List Char × List Char) :=
  match segs with
  | [] => some ([], [])
  | [a] => if b64SegOK a then some (a, []) else none
  | [a, b] => if b64SegOK a && b64SegOK b then some (a, b) else none
  | _ => none

/-- format.FindStringSubmatch for the anchored phc regex. Every
character class of the regex excludes the dollar sign, so each group
consumes whole dollar-delimited segments and the match is computed by
splitting on dollars and assigning segments to groups in order. -/
def findStringSubmatch (text : List Char) : Option Groups :=
  match text with
  | c :: rest =>
    if c = '$' then
      match splitOn '$' rest with
      | [] => none
      | idSeg :: segs =>
        if idOK idSeg then
          let (ver, segs1) := takeVersion segs
          let (pars, segs2) := takeParams segs1
          match matchSaltHash segs2 with
          | some (salt, hash) => some ⟨idSeg, ver, pars, salt, hash⟩
          | none => none
        else none
    else none
  | [] => none

/-- Parameter-segment parsing of Format.UnmarshalText: split the
captured group on commas, then each field on the equals sign, taking
the first two pieces as name and value. -/
def parseParams (seg : List Char) : List Parameter :=
  (splitOn ',' seg).map fun part =>
    let kv := splitOn '=' part
    { Name := kv.headD [], Value := (kv.drop 1).headD [] }

/-- Format.UnmarshalText. The pair is the receiver after the call and
the error, if any: the Go method assigns the parsed record to the
receiver only after the regex match and both base64 decodes have
succeeded, so every error path returns the receiver unchanged. -/
def unmarshalText (f : Format) (text : List Char) : Format × Option String :=
  match findStringSubmatch text with
  | none => (f, some "phc: not a valid format")
  | some g =>
    let ret : Format :=
      { ID := g.id
        Version := g.version
        Params := if g.params.isEmpty then [] else parseParams g.params
        Salt := []
        Hash := [] }
    if g.salt.isEmpty then (ret, none)
    else
      match b64decode g.salt with
      | none => (f, some "phc: salt decoding error")
      | some saltBytes =>
        if g.hash.isEmpty then ({ ret with Salt := saltBytes }, none)
        else
          match b64decode g.hash with
          | none => (f, some "phc: hash decoding error")
          | some hashBytes => ({ ret with Salt := saltBytes, Hash := hashBytes }, none)

/-- phc.Decode: UnmarshalText into a zero Format. -/
def phcDecode (text : List Char) : Except String Format :=
  match unmarshalText { ID := [], Version := [], Params := [], Salt := [], Hash := [] } text with
  | (f, none) => Except.ok f
  | (_, some e) => Except.error e

/-- Comma-joined parameter list as written by Format.String. -/
def joinParams : List Parameter → List Char
  | [] => []
  | [p] => p.Name ++ '=' :: p.Value
  | p :: q :: ps => p.Name ++ '=' :: p.Value ++ ',' :: joinParams (q :: ps)

/-- Format.String (and MarshalText): dollar, id, then a version
segment when the version is nonempty, a parameter segment when the
list is nonempty, and base64 salt and hash segments when the salt is
nonempty (the hash only ever after a salt). -/
def formatString (f : Format) : List Char :=
  '$' :: f.ID
  ++ (if f.Version.isEmpty then [] else '$' :: 'v' :: '=' :: f.Version)
  ++ (if f.Params.isEmpty then [] else '$' :: joinParams f.Params)
  ++ (if f.Salt.isEmpty then [] else
      '$' :: b64encode f.Salt ++ (if f.Hash.isEmpty then [] else '$' :: b64encode f.Hash))

/-- One parameter as the grammar admits it: nonempty name over the id
class, nonempty value over the extended base64 class. -/
def paramValid (p : Parameter) : Bool :=
  !p.Name.isEmpty && p.Name.all isIdChar && !p.Value.isEmpty && p.Value.all isValueChar

/-- Structural validity of a record, as enumerated by the round-trip
claim: id of one to thirty-two id-class characters, version empty or
digits only, parameter names nonempty over the id class with
nonempty values over the extended base64 class, hash nonempty only
when the salt is, and salt and hash made of bytes. -/
def validRecord (f : Format) : Bool :=
  idOK f.ID && f.Version.all isDigitChar &&
  f.Params.all paramValid &&
  (f.Hash.isEmpty || !f.Salt.isEmpty) &&
  f.Salt.all (fun b => b < 256) && f.Hash.all (fun b => b < 256)

/-- A record whose encoding is reparsed as a version rather than as
its parameter list: empty version and exactly one parameter named v
whose value is all digits. -/
def versionShadowed (f : Format) : Bool :=
  f.Version.isEmpty &&
  match f.Params with
  | [p] => p.Name == "v".data && !p.Value.isEmpty && p.Value.all isDigitChar
  | _ => false

end Phc

namespace Argon2

/-- Decimal digit character of a value below ten. -/
def digitOf (n : Nat) : Char := Char.ofNat (48 + n)

/-- Recursion core of the decimal formatter. The fuel argument only
bounds the recursion depth so that the definition is structural; any
fuel above the value itself is enough, and the zero-fuel branch is
never reached from natDecimal. -/
def natDecimalCore : Nat → Nat → List Char
  | _, 0 => []
  | n, fuel + 1 =>
    if n < 10 then [digitOf n]
    else natDecimalCore (n / 10) fuel ++ [digitOf (n % 10)]

/-- strconv.FormatUint(v, 10) and strconv.Itoa: canonical decimal
text, most significant digit first, no sign and no leading zeros. -/
def natDecimal (n : Nat) : List Char :=
  natDecimalCore n (n + 1)

/-- Numeric value of a decimal digit string, most significant first. -/
def digitsToNat (s : List Char) : Nat :=
  s.foldl (fun a c => a * 10 + (c.toNat - 48)) 0

/-- strconv.ParseUint(s, 10, bits): rejects the empty string, any
sign or non-digit character, and any value that does not fit in the
requested number of bits. -/
def parseUint (s : List Char) (bits : Nat) : Option Nat :=
  if s.isEmpty || !s.all Phc.isDigitChar then none
  else if digitsToNat s < 2 ^ bits then some (digitsToNat s) else none

/-- The version constant of golang.org/x/crypto/argon2 (an external
collaborator): argon2.Version = 19. -/
def argon2Version : Nat := 19

/-- The fixed identifier constant argon2ID = "argon2id". -/
def argon2ID : List Char := "argon2id".data

/-- The argon2 tuning parameters (type argon2.Parameters). The Go
fields are uint32, uint32, uint8, uint32; they are carried as Nat and
bounded where a claim needs the bound. -/
structure Parameters where
  Memory : Nat
  Time : Nat
  Parallelism : Nat
  KeyLength : Nat
deriving DecidableEq, Repr

/-- The external memory-hard KDF argon2.IDKey, an opaque deterministic
collaborator: password, salt, time, memory, parallelism, key length to
derived bytes. The Go []byte(password) conversion is absorbed into the
abstract function, which receives the password characters directly. -/
def KDF : Type := List Char → List Nat → Nat → Nat → Nat → Nat → List Nat

/-- Outcome of one invocation of a salt generator (the Go type
SaltGenerator is a nullary fallible function; its single call per Hash
is modelled by its result). -/
def SaltResult : Type := Except String (List Nat)

/-- NewSaltGenerator(length, randSource): io.ReadFull reads exactly
length bytes from the entropy source, failing when the source is
exhausted first. The source is modelled as the list of bytes it will
yield. -/
def NewSaltGenerator (length : Nat) (randSource : List Nat) : SaltResult :=
  if randSource.length < length then Except.error "unexpected EOF"
  else Except.ok (randSource.take length)

/-- The hasher state (type argon2.hasher): configured parameters and
salt generator. -/
structure Hasher where
  params : Parameters
  salt : SaltResult

/-- An option of New (type argon2.Option). -/
def HasherOption : Type := Hasher → Hasher

/-- WithParameters. -/
def WithParameters (params : Parameters) : HasherOption :=
  fun h => { h with params := params }

/-- WithSaltGenerator. -/
def WithSaltGenerator (g : SaltResult) : HasherOption :=
  fun h => { h with salt := g }

/-- New(opts...): the default options are applied first to the zero
hasher, then the supplied options, each later option overwriting what
it sets. The zero-value salt field of the Go struct (a nil function,
always overwritten by the default option) is rendered by an error
value. rand.Reader is modelled as the byte list randSource. -/
def New (randSource : List Nat) (opts : List HasherOption) : Hasher :=
  let defaultOptions : List HasherOption :=
    [WithParameters { Memory := 46 * 1024, Time := 1, Parallelism := 1, KeyLength := 32 },
     WithSaltGenerator (NewSaltGenerator 16 randSource)]
  (defaultOptions ++ opts).foldl (fun h opt => opt h)
    { params := { Memory := 0, Time := 0, Parallelism := 0, KeyLength := 0 }
      salt := Except.error "nil salt generator" }

/-- The fixed three-entry parameter list written by Hash and
EncodeWithSalt: m, t, p with canonical decimal values. -/
def mtpParams (params : Parameters) : List Phc.Parameter :=
  [{ Name := "m".data, Value := natDecimal params.Memory },
   { Name := "t".data, Value := natDecimal params.Time },
   { Name := "p".data, Value := natDecimal params.Parallelism }]

/-- hasher.Hash: run the salt generator, wrap its failure, then derive
with the configured parameters and serialize the record with the fixed
id, the decimal KDF version, the m, t, p list, the salt and the
derived hash. -/
def hasherHash (kdf : KDF) (h : Hasher) (password : List Char) : Except String (List Char) :=
  match h.salt with
  | Except.error e => Except.error ("salt generation error: " ++ e)
  | Except.ok salt =>
    let derived := kdf password salt h.params.Time h.params.Memory h.params.Parallelism
      h.params.KeyLength
    Except.ok (Phc.formatString
      { ID := argon2ID
        Version := natDecimal argon2Version
        Params := mtpParams h.params
        Hash := derived
        Salt := salt })

/-- subtle.ConstantTimeCopy(1, dst, src) into a fresh buffer of equal
length: by value, the copied salt is the salt. -/
def constantTimeCopy (src : List Nat) : List Nat := src

/-- EncodeWithSalt: defensively copy the salt, derive with the given
parameters, and assemble the record. -/
def EncodeWithSalt (kdf : KDF) (password : List Char) (salt : List Nat)
    (params : Parameters) : Phc.Format :=
  let copyedSalt := constantTimeCopy salt
  let hash := kdf password copyedSalt params.Time params.Memory params.Parallelism
    params.KeyLength
  { ID := argon2ID
    Version := natDecimal argon2Version
    Params := mtpParams params
    Hash := hash
    Salt := copyedSalt }

/-- argon2.Decode: phc decode, check id and version, require exactly
the parameters m, t, p in order with values parsing at 32, 32 and 8
bits, reject a hash longer than math.MaxUint32 bytes, and bind the
parameters with the key length taken from the decoded hash length. -/
def argon2Decode (encoded : List Char) : Except String (Phc.Format × Parameters) :=
  match Phc.phcDecode encoded with
  | Except.error e => Except.error ("PHC decode error: " ++ e)
  | Except.ok decoded =>
    if decoded.ID ≠ argon2ID then
      Except.error "unsupported hashing function"
    else if decoded.Version ≠ natDecimal argon2Version then
      Except.error "unsupported argon2id version"
    else
      match decoded.Params with
      | [p0, p1, p2] =>
        if p0.Name ≠ "m".data ∨ p1.Name ≠ "t".data ∨ p2.Name ≠ "p".data then
          Except.error "parameters should be in the order: m, t, p"
        else
          match parseUint p0.Value 32 with
          | none => Except.error "memory parameter decode error"
          | some memory =>
            match parseUint p1.Value 32 with
            | none => Except.error "time parameter decode error"
            | some time =>
              match parseUint p2.Value 8 with
              | none => Except.error "parallelims parameter decode error"
              | some parallelism =>
                if decoded.Hash.length > 4294967295 then
                  Except.error "hash is too long"
                else
                  Except.ok (decoded,
                    { KeyLength := decoded.Hash.length
                      Memory := memory
                      Time := time
                      Parallelism := parallelism })
      | _ => Except.error "invalid parameter count"

/-- subtle.ConstantTimeByteEq on byte values: uint32 arithmetic
(x xor y) - 1 shifted right by 31, which is one exactly when the two
bytes are equal. -/
def constantTimeByteEq (x y : Nat) : Nat :=
  (((x ^^^ y) + 2 ^ 32 - 1) % 2 ^ 32) >>> 31

/-- subtle.ConstantTimeCompare: zero on a length mismatch, otherwise
the or of all pointwise xors is accumulated over the whole length and
compared with zero at the end. -/
def constantTimeCompare (x y : List Nat) : Nat :=
  if x.length ≠ y.length then 0
  else
    constantTimeByteEq ((List.zip x y).foldl (fun v p => v ||| (p.1 ^^^ p.2)) 0) 0

/-- Number of loop iterations performed by subtle.ConstantTimeCompare
on the given inputs (the cost model of the constant-time claim): the
length guard runs no iterations, the comparison loop always runs once
per byte of the common length, never stopping at the first
difference. -/
def constantTimeCompareSteps (x y : List Nat) : Nat :=
  if x.length ≠ y.length then 0 else x.length

/-- hasher.IsSame: argon2 decode, re-derive with the decoded salt and
bound parameters, constant-time compare. The hasher configuration is
not consulted. -/
def hasherIsSame (kdf : KDF) (h : Hasher) (password encoded : List Char) :
    Except String Bool :=
  match argon2Decode encoded with
  | Except.error e => Except.error e
  | Except.ok (phcf, params) =>
    let newlyEncoded := EncodeWithSalt kdf password phcf.Salt params
    Except.ok (constantTimeCompare phcf.Hash newlyEncoded.Hash == 1)

/-- True on the success constructor of an Except value. -/
def exceptIsOk {α : Type} (e : Except String α) : Bool :=
  match e with
  | Except.ok _ => true
  | Except.error _ => false

/-- The schema failures enumerated by the parameter-binder claim:
parameter count not three, names other than m, t, p in that order, or
a value that does not parse at the stated width. -/
def paramSchemaErr (f : Phc.Format) : Bool :=
  match f.Params with
  | [p0, p1, p2] =>
    !(p0.Name == "m".data && p1.Name == "t".data && p2.Name == "p".data) ||
    (parseUint p0.Value 32).isNone || (parseUint p1.Value 32).isNone ||
    (parseUint p2.Value 8).isNone
  | _ => true

/-- The parameter-binder claim exactly as stated: over every
successfully parsed string with the configured id and version, Decode
errors if and only if one of the three schema failures holds, and on
success binds the parsed m, t, p with the key length taken from the
decoded hash. Stated as a proposition so that it can be refuted: the
code has a further error, a decoded hash longer than math.MaxUint32
bytes, which the enumeration omits. -/
def c4Statement : Prop :=
  ∀ (s : List Char) (f : Phc.Format), Phc.phcDecode s = Except.ok f →
    f.ID = argon2ID → f.Version = natDecimal argon2Version →
    (exceptIsOk (argon2Decode s) = false ↔ paramSchemaErr f = true) ∧
    (∀ f' p, argon2Decode s = Except.ok (f', p) →
      f' = f ∧ p.KeyLength = f.Hash.length ∧
      ∀ p0 p1 p2, f.Params = [p0, p1, p2] →
        parseUint p0.Value 32 = some p.Memory ∧
        parseUint p1.Value 32 = some p.Time ∧
        parseUint p2.Value 8 = some p.Parallelism)

/-- Number of four-character base64 quantums in the smallest hash
segment whose decoded length exceeds math.MaxUint32. -/
def hugeQuantums : Nat := 1431655766

/-- A syntactically valid argon2id string whose hash segment decodes
to three bytes per quantum, 4294967298 bytes in total: one byte more
than fits the uint32 key length. -/
def sHuge : List Char :=
  "$argon2id$v=19$m=1,t=1,p=1$AA$".data ++ List.replicate (4 * hugeQuantums) 'A'

/-- The record the phc layer parses out of sHuge. -/
def fHuge : Phc.Format :=
  { ID := "argon2id".data
    Version := "19".data
    Params := [{ Name := "m".data, Value := "1".data },
               { Name := "t".data, Value := "1".data },
               { Name := "p".data, Value := "1".data }]
    Salt := [0]
    Hash := List.replicate (3 * hugeQuantums) 0 }

end Argon2

namespace Phc

theorem splitOn_ne_nil (sep : Char) (l : List Char) : splitOn sep l ≠ [] := by
  induction l with
  | nil => simp [splitOn]
  | cons c cs ih =>
    simp only [splitOn]
    split
    · simp
    · split
      · simp
      · simp

theorem not_mem_of_all_pos {p : Char → Bool} {a : List Char} {sep : Char}
    (h : a.all p = true) (hp : p sep = false) : sep ∉ a := by
  intro hm
  have := List.all_eq_true.mp h sep hm
  rw [hp] at this
  exact Bool.false_ne_true this

theorem splitOn_of_not_mem {sep : Char} {a : List Char} (h : sep ∉ a) :
    splitOn sep a = [a] := by
  induction a with
  | nil => rfl
  | cons c cs ih =>
    have hc : c ≠ sep := fun e => h (e ▸ List.mem_cons_self c cs)
    have hcs : sep ∉ cs := fun m => h (List.mem_cons_of_mem c m)
    simp only [splitOn, if_neg (fun e => hc e), ih hcs]

theorem splitOn_append {sep : Char} {a : List Char} (r : List Char) (h : sep ∉ a) :
    splitOn sep (a ++ sep :: r) = a :: splitOn sep r := by
  induction a with
  | nil => simp [splitOn]
  | cons c cs ih =>
    have hc : c ≠ sep := fun e => h (e ▸ List.mem_cons_self c cs)
    have hcs : sep ∉ cs := fun m => h (List.mem_cons_of_mem c m)
    simp only [List.cons_append, splitOn, if_neg (fun e => hc e), List.append_eq]
    rw [ih hcs]

theorem joinWith_splitOn (sep : Char) (l : List Char) :
    joinWith sep (splitOn sep l) = l := by
  induction l with
  | nil => rfl
  | cons c cs ih =>
    simp only [splitOn]
    by_cases hc : c = sep
    · rw [if_pos hc]
      obtain ⟨s, ss, hss⟩ := List.exists_cons_of_ne_nil (splitOn_ne_nil sep cs)
      rw [hss] at ih ⊢
      simp only [joinWith, List.nil_append]
      rw [ih, hc]
    · rw [if_neg hc]
      obtain ⟨s, ss, hss⟩ := List.exists_cons_of_ne_nil (splitOn_ne_nil sep cs)
      rw [hss] at ih ⊢
      cases ss with
      | nil => simp only [joinWith] at ih ⊢; rw [ih]
      | cons t ts =>
        simp only [joinWith, List.cons_append] at ih ⊢
        rw [ih]

theorem idChar_ne_dollar {c : Char} (h : isIdChar c = true) : c ≠ '$' := by
  rintro rfl
  exact absurd h (by decide)

theorem valueChar_ne_dollar {c : Char} (h : isValueChar c = true) : c ≠ '$' := by
  rintro rfl
  exact absurd h (by decide)

theorem digitChar_isValueChar {c : Char} (h : isDigitChar c = true) : isValueChar c = true := by
  simp only [isDigitChar, Bool.and_eq_true, decide_eq_true_eq] at h
  simp only [isValueChar, Bool.or_eq_true, Bool.and_eq_true, decide_eq_true_eq]
  omega

theorem idChar_isValueChar {c : Char} (h : isIdChar c = true) : isValueChar c = true := by
  simp only [isIdChar, Bool.or_eq_true, Bool.and_eq_true, decide_eq_true_eq] at h
  simp only [isValueChar, Bool.or_eq_true, Bool.and_eq_true, decide_eq_true_eq]
  omega

theorem b64Char_isValueChar {c : Char} (h : isB64Char c = true) : isValueChar c = true := by
  simp only [isB64Char, Bool.or_eq_true, Bool.and_eq_true, decide_eq_true_eq] at h
  simp only [isValueChar, Bool.or_eq_true, Bool.and_eq_true, decide_eq_true_eq]
  omega

theorem idChar_ne_eq {c : Char} (h : isIdChar c = true) : c ≠ '=' := by
  rintro rfl
  exact absurd h (by decide)

theorem valueChar_ne_eq {c : Char} (h : isValueChar c = true) : c ≠ '=' := by
  rintro rfl
  exact absurd h (by decide)

theorem idChar_ne_comma {c : Char} (h : isIdChar c = true) : c ≠ ',' := by
  rintro rfl
  exact absurd h (by decide)

theorem valueChar_ne_comma {c : Char} (h : isValueChar c = true) : c ≠ ',' := by
  rintro rfl
  exact absurd h (by decide)

theorem b64Char_ne_eq {c : Char} (h : isB64Char c = true) : c ≠ '=' := by
  rintro rfl
  exact absurd h (by decide)

theorem digitChar_ne_comma {c : Char} (h : isDigitChar c = true) : c ≠ ',' := by
  rintro rfl
  exact absurd h (by decide)

theorem b64idx_b64alpha : ∀ i < 64, b64idx (b64alpha i) = some i := by decide

theorem b64alpha_isB64Char (i : Nat) : isB64Char (b64alpha i) = true := by
  by_cases h : i < 64
  · have all : ∀ j < 64, isB64Char (b64alpha j) = true := by decide
    exact all i h
  · unfold b64alpha
    rw [if_neg (by omega), if_neg (by omega), if_neg (by omega), if_neg (by omega)]
    decide

theorem b64encode_all_b64 (x : List Nat) : (b64encode x).all isB64Char = true := by
  induction x using b64encode.induct with
  | case1 => rfl
  | case2 a => simp [b64encode, b64alpha_isB64Char]
  | case3 a b => simp [b64encode, b64alpha_isB64Char]
  | case4 a b c rest ih => simp [b64encode, b64alpha_isB64Char, ih]

theorem b64encode_ne_nil {x : List Nat} (h : x ≠ []) : b64encode x ≠ [] := by
  match x, h with
  | [a], _ => simp [b64encode]
  | [a, b], _ => simp [b64encode]
  | a :: b :: c :: rest, _ => simp [b64encode]

theorem b64decode_b64encode {x : List Nat} (h : x.all (fun b => b < 256) = true) :
    b64decode (b64encode x) = some x := by
  induction x using b64encode.induct with
  | case1 => rfl
  | case2 a =>
    simp only [List.all_cons, List.all_nil, Bool.and_true, decide_eq_true_eq] at h
    simp only [b64encode, b64decode,
      b64idx_b64alpha _ (by omega : a / 4 < 64),
      b64idx_b64alpha _ (by omega : a % 4 * 16 < 64)]
    congr 2
    omega
  | case3 a b =>
    simp only [List.all_cons, List.all_nil, Bool.and_true, Bool.and_eq_true,
      decide_eq_true_eq] at h
    obtain ⟨ha, hb⟩ := h
    simp only [b64encode, b64decode,
      b64idx_b64alpha _ (by omega : a / 4 < 64),
      b64idx_b64alpha _ (by omega : a % 4 * 16 + b / 16 < 64),
      b64idx_b64alpha _ (by omega : b % 16 * 4 < 64)]
    have e1 : a / 4 * 4 + (a % 4 * 16 + b / 16) / 16 = a := by omega
    have e2 : (a % 4 * 16 + b / 16) % 16 * 16 + b % 16 * 4 / 4 = b := by omega
    rw [e1, e2]
  | case4 a b c rest ih =>
    simp only [List.all_cons, Bool.and_eq_true, decide_eq_true_eq] at h
    obtain ⟨ha, hb, hc, hrest⟩ := h
    have hr := ih hrest
    simp only [b64encode, b64decode,
      b64idx_b64alpha _ (by omega : a / 4 < 64),
      b64idx_b64alpha _ (by omega : a % 4 * 16 + b / 16 < 64),
      b64idx_b64alpha _ (by omega : b % 16 * 4 + c / 64 < 64),
      b64idx_b64alpha _ (by omega : c % 64 < 64), hr]
    simp only [Option.some.injEq, List.cons.injEq]
    refine ⟨by omega, by omega, by omega, trivial⟩

theorem all_mono {l : List Char} {p q : Char → Bool} (h : l.all p = true)
    (imp : ∀ c, p c = true → q c = true) : l.all q = true := by
  rw [List.all_eq_true] at h ⊢
  exact fun c hc => imp c (h c hc)

theorem b64Char_ne_comma {c : Char} (h : isB64Char c = true) : c ≠ ',' := by
  rintro rfl
  exact absurd h (by decide)

theorem b64Char_ne_dollar {c : Char} (h : isB64Char c = true) : c ≠ '$' := by
  rintro rfl
  exact absurd h (by decide)

theorem digitChar_ne_dollar {c : Char} (h : isDigitChar c = true) : c ≠ '$' := by
  rintro rfl
  exact absurd h (by decide)

theorem b64decode_ne_nil {cs : List Char} {bs : List Nat} (h : b64decode cs = some bs)
    (hne : cs ≠ []) : bs ≠ [] := by
  intro hbs
  subst hbs
  match cs, hne with
  | [a], _ => simp [b64decode] at h
  | [a, b], _ =>
    simp only [b64decode] at h
    cases hxa : b64idx a <;> cases hxb : b64idx b <;> simp [hxa, hxb] at h
  | [a, b, c], _ =>
    simp only [b64decode] at h
    cases hxa : b64idx a <;> cases hxb : b64idx b <;> cases hxc : b64idx c <;>
      simp [hxa, hxb, hxc] at h
  | a :: b :: c :: d :: rest, _ =>
    simp only [b64decode] at h
    cases hxa : b64idx a <;> cases hxb : b64idx b <;> cases hxc : b64idx c <;>
      cases hxd : b64idx d <;> cases hxr : b64decode rest <;>
      simp [hxa, hxb, hxc, hxd, hxr] at h

theorem versionSegParse_version {ver : List Char} (hne : ver ≠ [])
    (hd : ver.all isDigitChar = true) : versionSegParse ('v' :: '=' :: ver) = some ver := by
  simp [versionSegParse, hne, hd]

theorem versionSegParse_b64 {seg : List Char} (h : seg.all isB64Char = true) :
    versionSegParse seg = none := by
  match seg with
  | [] => rfl
  | [a] => rfl
  | a :: b :: ds =>
    have hb : isB64Char b = true := by
      have := List.all_eq_true.mp h b (by simp)
      simpa using this
    have : (b == '=') = false := by
      rw [beq_eq_false_iff_ne]
      exact b64Char_ne_eq hb
    simp [versionSegParse, this]

theorem dollar_not_mem_part {p : Parameter} (h : paramValid p = true) :
    '$' ∉ p.Name ++ '=' :: p.Value := by
  simp only [paramValid, Bool.and_eq_true] at h
  intro hm
  rcases List.mem_append.mp hm with hn | hv
  · exact idChar_ne_dollar (List.all_eq_true.mp h.1.1.2 _ hn) rfl
  · rcases List.mem_cons.mp hv with he | hv
    · exact absurd he.symm (by decide)
    · exact valueChar_ne_dollar (List.all_eq_true.mp h.2 _ hv) rfl

theorem comma_not_mem_part {p : Parameter} (h : paramValid p = true) :
    ',' ∉ p.Name ++ '=' :: p.Value := by
  simp only [paramValid, Bool.and_eq_true] at h
  intro hm
  rcases List.mem_append.mp hm with hn | hv
  · exact idChar_ne_comma (List.all_eq_true.mp h.1.1.2 _ hn) rfl
  · rcases List.mem_cons.mp hv with he | hv
    · exact absurd he.symm (by decide)
    · exact valueChar_ne_comma (List.all_eq_true.mp h.2 _ hv) rfl

theorem splitOn_comma_joinParams {ps : List Parameter} (hv : ps.all paramValid = true)
    (hne : ps ≠ []) :
    splitOn ',' (joinParams ps) = ps.map (fun p => p.Name ++ '=' :: p.Value) := by
  induction ps using joinParams.induct with
  | case1 => exact absurd rfl hne
  | case2 p =>
    simp only [List.all_cons, List.all_nil, Bool.and_true] at hv
    simp only [joinParams, List.map]
    exact splitOn_of_not_mem (comma_not_mem_part hv)
  | case3 p q ps ih =>
    simp only [List.all_cons, Bool.and_eq_true] at hv
    simp only [joinParams, List.map]
    rw [splitOn_append _ (comma_not_mem_part hv.1)]
    congr 1
    exact ih (by simp [hv.2.1, hv.2.2]) (by simp)

theorem splitOn_eq_part {p : Parameter} (h : paramValid p = true) :
    splitOn '=' (p.Name ++ '=' :: p.Value) = [p.Name, p.Value] := by
  simp only [paramValid, Bool.and_eq_true] at h
  have hn : '=' ∉ p.Name :=
    not_mem_of_all_pos h.1.1.2 (by decide)
  have hval : '=' ∉ p.Value :=
    not_mem_of_all_pos h.2 (by decide)
  rw [splitOn_append _ hn, splitOn_of_not_mem hval]

theorem paramOK_part {p : Parameter} (h : paramValid p = true) :
    paramOK (p.Name ++ '=' :: p.Value) = true := by
  have hsp := splitOn_eq_part h
  simp only [paramValid, Bool.and_eq_true] at h
  simp [paramOK, hsp, h.1.1.1, h.1.1.2, h.1.2, h.2]

theorem paramsSegOK_joinParams {ps : List Parameter} (hv : ps.all paramValid = true)
    (hne : ps ≠ []) : paramsSegOK (joinParams ps) = true := by
  rw [paramsSegOK, splitOn_comma_joinParams hv hne, List.all_eq_true]
  intro part hpart
  obtain ⟨p, hp, rfl⟩ := List.mem_map.mp hpart
  exact paramOK_part (List.all_eq_true.mp hv p hp)

theorem parseParams_joinParams {ps : List Parameter} (hv : ps.all paramValid = true)
    (hne : ps ≠ []) : parseParams (joinParams ps) = ps := by
  rw [parseParams, splitOn_comma_joinParams hv hne, List.map_map]
  rw [show ps = List.map id ps from (List.map_id ps).symm]
  rw [List.map_map]
  apply List.map_congr_left
  intro p hp
  have h := List.all_eq_true.mp hv p (by simpa using hp)
  simp only [Function.comp_apply, splitOn_eq_part h, id]
  rfl

theorem joinParams_ne_nil {p : Parameter} (ps : List Parameter)
    (h : paramValid p = true) : joinParams (p :: ps) ≠ [] := by
  simp only [paramValid, Bool.and_eq_true] at h
  have hn : p.Name ≠ [] := by simpa using h.1.1.1
  cases ps <;> simp [joinParams, hn]

theorem versionSegParse_name_part {nm rest ds : List Char} (hne : nm ≠ [])
    (hid : nm.all isIdChar = true)
    (h : versionSegParse (nm ++ '=' :: rest) = some ds) :
    nm = ['v'] ∧ ds = rest ∧ ds ≠ [] ∧ ds.all isDigitChar = true := by
  match nm, hne with
  | n0 :: nt, _ =>
    match nt with
    | nh :: nt' =>
      have hnh : isIdChar nh = true := List.all_eq_true.mp hid nh (by simp)
      have hb : (nh == '=') = false := beq_eq_false_iff_ne.mpr (idChar_ne_eq hnh)
      simp only [List.cons_append, versionSegParse, hb, Bool.and_eq_true] at h
      simp at h
    | [] =>
      simp only [List.cons_append, List.nil_append, versionSegParse] at h
      split at h
      · next hcond =>
        simp only [Bool.and_eq_true, beq_iff_eq] at hcond
        obtain ⟨⟨⟨hn0, _⟩, hds⟩, hdig⟩ := hcond
        simp only [Option.some.injEq] at h
        subst h
        exact ⟨by rw [hn0], rfl, by simpa using hds, hdig⟩
      · exact absurd h (by simp)

theorem versionSegParse_joinParams_some {ps : List Parameter} {ds : List Char}
    (hv : ps.all paramValid = true)
    (h : versionSegParse (joinParams ps) = some ds) :
    ps = [{ Name := ['v'], Value := ds }] ∧ ds ≠ [] ∧ ds.all isDigitChar = true := by
  cases ps with
  | nil => simp [joinParams, versionSegParse] at h
  | cons p ps' =>
    have hpv := List.all_eq_true.mp hv p (List.mem_cons_self p ps')
    simp only [paramValid, Bool.and_eq_true] at hpv
    have hnm_ne : p.Name ≠ [] := by simpa using hpv.1.1.1
    cases ps' with
    | nil =>
      simp only [joinParams] at h
      obtain ⟨hv', rfl, hne, hdig⟩ := versionSegParse_name_part hnm_ne hpv.1.1.2 h
      refine ⟨?_, hne, hdig⟩
      obtain ⟨nm, vl⟩ := p
      simp only at hv'
      rw [hv']
    | cons q ps'' =>
      exfalso
      simp only [joinParams] at h
      rw [show p.Name ++ ('=' :: p.Value) ++ ',' :: joinParams (q :: ps'') =
          p.Name ++ '=' :: (p.Value ++ ',' :: joinParams (q :: ps'')) by simp] at h
      obtain ⟨_, rfl, _, hdig⟩ := versionSegParse_name_part hnm_ne hpv.1.1.2 h
      have hcomma : (',' : Char) ∈ p.Value ++ ',' :: joinParams (q :: ps'') := by simp
      exact absurd (List.all_eq_true.mp hdig _ hcomma) (by decide)

theorem paramsSegOK_b64 {seg : List Char} (h : seg.all isB64Char = true) :
    paramsSegOK seg = false := by
  have hcomma : ',' ∉ seg := not_mem_of_all_pos h (by decide)
  have heq : '=' ∉ seg := not_mem_of_all_pos h (by decide)
  rw [paramsSegOK, splitOn_of_not_mem hcomma]
  simp only [List.all_cons, List.all_nil, Bool.and_true]
  rw [paramOK, splitOn_of_not_mem heq]

theorem b64SegOK_encode {x : List Nat} (hne : x ≠ []) : b64SegOK (b64encode x) = true := by
  rw [b64SegOK]
  have h1 : (b64encode x).isEmpty = false := by
    simpa [List.isEmpty_iff] using b64encode_ne_nil hne
  have h2 : (b64encode x).all isValueChar = true :=
    all_mono (b64encode_all_b64 x) (fun c => b64Char_isValueChar)
  simp [h1, h2]

theorem dollar_not_mem_joinParams {ps : List Parameter} (hv : ps.all paramValid = true) :
    '$' ∉ joinParams ps := by
  induction ps using joinParams.induct with
  | case1 => simp [joinParams]
  | case2 p =>
    simp only [List.all_cons, List.all_nil, Bool.and_true] at hv
    simpa [joinParams] using dollar_not_mem_part hv
  | case3 p q ps ih =>
    simp only [List.all_cons, Bool.and_eq_true] at hv
    have hpart := dollar_not_mem_part hv.1
    have hrest := ih (by simp [hv.2.1, hv.2.2])
    intro hm
    simp only [joinParams] at hm
    rcases List.mem_append.mp hm with hp | hc
    · exact hpart hp
    · rcases List.mem_cons.mp hc with he | hr
      · exact absurd he (by decide)
      · exact hrest hr

theorem dollar_not_mem_b64encode (x : List Nat) : '$' ∉ b64encode x :=
  not_mem_of_all_pos (b64encode_all_b64 x) (by decide)

end Phc

namespace Phc

theorem splitOn_dollar_encode (parts : List (List Char)) (a : List Char)
    (hnd : ∀ s ∈ parts, '$' ∉ s) (ha : '$' ∉ a) :
    splitOn '$' (a ++ (parts.map (fun s => '$' :: s)).flatten) = a :: parts := by
  induction parts generalizing a with
  | nil => simpa using splitOn_of_not_mem ha
  | cons s parts' ih =>
    simp only [List.map, List.flatten]
    rw [show a ++ ('$' :: s ++ (parts'.map (fun s => '$' :: s)).flatten) =
        a ++ '$' :: (s ++ (parts'.map (fun s => '$' :: s)).flatten) by simp]
    rw [splitOn_append _ ha]
    rw [ih s (fun t ht => hnd t (List.mem_cons_of_mem s ht)) (hnd s (List.mem_cons_self s parts'))]

/-- C1 (amended): for every structurally valid record that is not
version-shadowed (empty version with a parameter list that is exactly
one all-digit parameter named v), decoding the encoding yields the
record back. -/
theorem c1_roundtrip_amended (f : Format) (hvr : validRecord f = true)
    (hsh : versionShadowed f = false) :
    phcDecode (formatString f) = Except.ok f := by
  obtain ⟨ID, VER, PS, SA, HA⟩ := f
  simp only [validRecord, Bool.and_eq_true] at hvr
  obtain ⟨⟨⟨⟨⟨hid, hver⟩, hps⟩, hsh2⟩, hsa⟩, hha⟩ := hvr
  have hallID : ID.all isIdChar = true := by
    have h := hid
    simp only [idOK, Bool.and_eq_true] at h
    exact h.2
  have hdID : '$' ∉ ID := not_mem_of_all_pos hallID (by decide)
  have hdV : '$' ∉ 'v' :: '=' :: VER := by
    intro hm
    rcases List.mem_cons.mp hm with he | hm
    · exact absurd he (by decide)
    · rcases List.mem_cons.mp hm with he | hm
      · exact absurd he (by decide)
      · exact digitChar_ne_dollar (List.all_eq_true.mp hver _ hm) rfl
  have hdJ : '$' ∉ joinParams PS := dollar_not_mem_joinParams hps
  have hnoV : VER = [] → versionSegParse (joinParams PS) = none := by
    intro hV
    cases hvp : versionSegParse (joinParams PS) with
    | none => rfl
    | some ds =>
      exfalso
      obtain ⟨hps_eq, hdne, hdig⟩ := versionSegParse_joinParams_some hps hvp
      simp only [versionShadowed] at hsh
      rw [hV, hps_eq] at hsh
      simp [hdig, List.isEmpty_iff, hdne] at hsh
  have hJe : PS ≠ [] → (joinParams PS).isEmpty = false := by
    intro hP
    obtain ⟨p, ps', rfl⟩ := List.exists_cons_of_ne_nil hP
    simpa [List.isEmpty_iff] using joinParams_ne_nil ps' (List.all_eq_true.mp hps p (by simp))
  by_cases hV : VER = [] <;> by_cases hP : PS = [] <;> by_cases hS : SA = [] <;>
    by_cases hH : HA = []
  -- branch V=[] P=[] S=[] H=[]
  · subst hV hP hS hH
    have htext : formatString ⟨ID, [], [], [], []⟩ = '$' :: (ID ++
        (List.map (fun s => '$' :: s) ([] : List (List Char))).flatten) := by
      simp [formatString]
    have hfind : findStringSubmatch (formatString ⟨ID, [], [], [], []⟩) =
        some ⟨ID, [], [], [], []⟩ := by
      rw [htext]
      simp only [findStringSubmatch, splitOn_dollar_encode [] ID (by simp) hdID]
      simp only [hid, if_true, takeVersion, takeParams, matchSaltHash]
    have hum : unmarshalText ⟨[], [], [], [], []⟩ (formatString ⟨ID, [], [], [], []⟩) =
        (⟨ID, [], [], [], []⟩, none) := by
      simp only [unmarshalText, hfind, List.isEmpty_nil, if_true]
    simp only [phcDecode, hum]
  -- branch V=[] P=[] S=[] H≠[]
  · exfalso
    subst hV hP hS
    simp [List.isEmpty_iff, hH] at hsh2
  -- branch V=[] P=[] S≠[] H=[]
  · subst hV hP hH
    have hSe : SA.isEmpty = false := by simpa [List.isEmpty_iff] using hS
    have htext : formatString ⟨ID, [], [], SA, []⟩ = '$' :: (ID ++
        (List.map (fun s => '$' :: s) [b64encode SA]).flatten) := by
      simp [formatString, hSe]
    have hfind : findStringSubmatch (formatString ⟨ID, [], [], SA, []⟩) =
        some ⟨ID, [], [], b64encode SA, []⟩ := by
      rw [htext]
      simp only [findStringSubmatch,
        splitOn_dollar_encode [b64encode SA] ID
          (by intro s hs; rcases List.mem_cons.mp hs with rfl | hs
              · exact dollar_not_mem_b64encode SA
              · simp at hs) hdID]
      simp only [hid, if_true, takeVersion, versionSegParse_b64 (b64encode_all_b64 SA),
        takeParams, paramsSegOK_b64 (b64encode_all_b64 SA), Bool.false_eq_true, if_false,
        matchSaltHash, b64SegOK_encode hS, if_true]
    have hBSe : (b64encode SA).isEmpty = false := by
      simpa [List.isEmpty_iff] using b64encode_ne_nil hS
    have hum : unmarshalText ⟨[], [], [], [], []⟩ (formatString ⟨ID, [], [], SA, []⟩) =
        (⟨ID, [], [], SA, []⟩, none) := by
      simp only [unmarshalText, hfind, List.isEmpty_nil, if_true, hBSe,
        Bool.false_eq_true, if_false, b64decode_b64encode hsa]
    simp only [phcDecode, hum]
  -- branch V=[] P=[] S≠[] H≠[]
  · subst hV hP
    have hSe : SA.isEmpty = false := by simpa [List.isEmpty_iff] using hS
    have hHe : HA.isEmpty = false := by simpa [List.isEmpty_iff] using hH
    have htext : formatString ⟨ID, [], [], SA, HA⟩ = '$' :: (ID ++
        (List.map (fun s => '$' :: s) [b64encode SA, b64encode HA]).flatten) := by
      simp [formatString, hSe, hHe]
    have hfind : findStringSubmatch (formatString ⟨ID, [], [], SA, HA⟩) =
        some ⟨ID, [], [], b64encode SA, b64encode HA⟩ := by
      rw [htext]
      simp only [findStringSubmatch,
        splitOn_dollar_encode [b64encode SA, b64encode HA] ID
          (by intro s hs; rcases List.mem_cons.mp hs with rfl | hs
              · exact dollar_not_mem_b64encode SA
              · rcases List.mem_cons.mp hs with rfl | hs
                · exact dollar_not_mem_b64encode HA
                · simp at hs) hdID]
      simp only [hid, if_true, takeVersion, versionSegParse_b64 (b64encode_all_b64 SA),
        takeParams, paramsSegOK_b64 (b64encode_all_b64 SA), Bool.false_eq_true, if_false,
        matchSaltHash, b64SegOK_encode hS, b64SegOK_encode hH, Bool.and_self, if_true]
    have hBSe : (b64encode SA).isEmpty = false := by
      simpa [List.isEmpty_iff] using b64encode_ne_nil hS
    have hBHe : (b64encode HA).isEmpty = false := by
      simpa [List.isEmpty_iff] using b64encode_ne_nil hH
    have hum : unmarshalText ⟨[], [], [], [], []⟩ (formatString ⟨ID, [], [], SA, HA⟩) =
        (⟨ID, [], [], SA, HA⟩, none) := by
      simp only [unmarshalText, hfind, List.isEmpty_nil, if_true, hBSe, hBHe,
        Bool.false_eq_true, if_false, b64decode_b64encode hsa, b64decode_b64encode hha]
    simp only [phcDecode, hum]
  -- branch V=[] P≠[] S=[] H=[]
  · subst hV hS hH
    have hPe : PS.isEmpty = false := by simpa [List.isEmpty_iff] using hP
    have htext : formatString ⟨ID, [], PS, [], []⟩ = '$' :: (ID ++
        (List.map (fun s => '$' :: s) [joinParams PS]).flatten) := by
      simp [formatString, hPe]
    have hfind : findStringSubmatch (formatString ⟨ID, [], PS, [], []⟩) =
        some ⟨ID, [], joinParams PS, [], []⟩ := by
      rw [htext]
      simp only [findStringSubmatch,
        splitOn_dollar_encode [joinParams PS] ID
          (by intro s hs; rcases List.mem_cons.mp hs with rfl | hs
              · exact hdJ
              · simp at hs) hdID]
      simp only [hid, if_true, takeVersion, hnoV rfl,
        takeParams, paramsSegOK_joinParams hps hP, if_true, matchSaltHash]
    have hum : unmarshalText ⟨[], [], [], [], []⟩ (formatString ⟨ID, [], PS, [], []⟩) =
        (⟨ID, [], PS, [], []⟩, none) := by
      simp only [unmarshalText, hfind, hJe hP, Bool.false_eq_true, if_false,
        List.isEmpty_nil, if_true, parseParams_joinParams hps hP]
    simp only [phcDecode, hum]
  -- branch V=[] P≠[] S=[] H≠[]
  · exfalso
    subst hV hS
    simp [List.isEmpty_iff, hH] at hsh2
  -- branch V=[] P≠[] S≠[] H=[]
  · subst hV hH
    have hPe : PS.isEmpty = false := by simpa [List.isEmpty_iff] using hP
    have hSe : SA.isEmpty = false := by simpa [List.isEmpty_iff] using hS
    have htext : formatString ⟨ID, [], PS, SA, []⟩ = '$' :: (ID ++
        (List.map (fun s => '$' :: s) [joinParams PS, b64encode SA]).flatten) := by
      simp [formatString, hPe, hSe]
    have hfind : findStringSubmatch (formatString ⟨ID, [], PS, SA, []⟩) =
        some ⟨ID, [], joinParams PS, b64encode SA, []⟩ := by
      rw [htext]
      simp only [findStringSubmatch,
        splitOn_dollar_encode [joinParams PS, b64encode SA] ID
          (by intro s hs; rcases List.mem_cons.mp hs with rfl | hs
              · exact hdJ
              · rcases List.mem_cons.mp hs with rfl | hs
                · exact dollar_not_mem_b64encode SA
                · simp at hs) hdID]
      simp only [hid, if_true, takeVersion, hnoV rfl,
        takeParams, paramsSegOK_joinParams hps hP, if_true,
        matchSaltHash, b64SegOK_encode hS]
    have hBSe : (b64encode SA).isEmpty = false := by
      simpa [List.isEmpty_iff] using b64encode_ne_nil hS
    have hum : unmarshalText ⟨[], [], [], [], []⟩ (formatString ⟨ID, [], PS, SA, []⟩) =
        (⟨ID, [], PS, SA, []⟩, none) := by
      simp only [unmarshalText, hfind, hJe hP, hBSe, Bool.false_eq_true, if_false,
        List.isEmpty_nil, if_true, parseParams_joinParams hps hP,
        b64decode_b64encode hsa]
    simp only [phcDecode, hum]
  -- branch V=[] P≠[] S≠[] H≠[]
  · subst hV
    have hPe : PS.isEmpty = false := by simpa [List.isEmpty_iff] using hP
    have hSe : SA.isEmpty = false := by simpa [List.isEmpty_iff] using hS
    have hHe : HA.isEmpty = false := by simpa [List.isEmpty_iff] using hH
    have htext : formatString ⟨ID, [], PS, SA, HA⟩ = '$' :: (ID ++
        (List.map (fun s => '$' :: s) [joinParams PS, b64encode SA, b64encode HA]).flatten) := by
      simp [formatString, hPe, hSe, hHe]
    have hfind : findStringSubmatch (formatString ⟨ID, [], PS, SA, HA⟩) =
        some ⟨ID, [], joinParams PS, b64encode SA, b64encode HA⟩ := by
      rw [htext]
      simp only [findStringSubmatch,
        splitOn_dollar_encode [joinParams PS, b64encode SA, b64encode HA] ID
          (by intro s hs; rcases List.mem_cons.mp hs with rfl | hs
              · exact hdJ
              · rcases List.mem_cons.mp hs with rfl | hs
                · exact dollar_not_mem_b64encode SA
                · rcases List.mem_cons.mp hs with rfl | hs
                  · exact dollar_not_mem_b64encode HA
                  · simp at hs) hdID]
      simp only [hid, if_true, takeVersion, hnoV rfl,
        takeParams, paramsSegOK_joinParams hps hP, if_true,
        matchSaltHash, b64SegOK_encode hS, b64SegOK_encode hH, Bool.and_self]
    have hBSe : (b64encode SA).isEmpty = false := by
      simpa [List.isEmpty_iff] using b64encode_ne_nil hS
    have hBHe : (b64encode HA).isEmpty = false := by
      simpa [List.isEmpty_iff] using b64encode_ne_nil hH
    have hum : unmarshalText ⟨[], [], [], [], []⟩ (formatString ⟨ID, [], PS, SA, HA⟩) =
        (⟨ID, [], PS, SA, HA⟩, none) := by
      simp only [unmarshalText, hfind, hJe hP, hBSe, hBHe, Bool.false_eq_true, if_false,
        parseParams_joinParams hps hP, b64decode_b64encode hsa, b64decode_b64encode hha]
    simp only [phcDecode, hum]
  -- branch V≠[] P=[] S=[] H=[]
  · subst hP hS hH
    have hVe : VER.isEmpty = false := by simpa [List.isEmpty_iff] using hV
    have htext : formatString ⟨ID, VER, [], [], []⟩ = '$' :: (ID ++
        (List.map (fun s => '$' :: s) ['v' :: '=' :: VER]).flatten) := by
      simp [formatString, hVe]
    have hfind : findStringSubmatch (formatString ⟨ID, VER, [], [], []⟩) =
        some ⟨ID, VER, [], [], []⟩ := by
      rw [htext]
      simp only [findStringSubmatch,
        splitOn_dollar_encode ['v' :: '=' :: VER] ID
          (by intro s hs; rcases List.mem_cons.mp hs with rfl | hs
              · exact hdV
              · simp at hs) hdID]
      simp only [hid, if_true, takeVersion, versionSegParse_version hV hver,
        takeParams, matchSaltHash]
    have hum : unmarshalText ⟨[], [], [], [], []⟩ (formatString ⟨ID, VER, [], [], []⟩) =
        (⟨ID, VER, [], [], []⟩, none) := by
      simp only [unmarshalText, hfind, List.isEmpty_nil, if_true]
    simp only [phcDecode, hum]
  -- branch V≠[] P=[] S=[] H≠[]
  · exfalso
    subst hP hS
    simp [List.isEmpty_iff, hH] at hsh2
  -- branch V≠[] P=[] S≠[] H=[]
  · subst hP hH
    have hVe : VER.isEmpty = false := by simpa [List.isEmpty_iff] using hV
    have hSe : SA.isEmpty = false := by simpa [List.isEmpty_iff] using hS
    have htext : formatString ⟨ID, VER, [], SA, []⟩ = '$' :: (ID ++
        (List.map (fun s => '$' :: s) ['v' :: '=' :: VER, b64encode SA]).flatten) := by
      simp [formatString, hVe, hSe]
    have hfind : findStringSubmatch (formatString ⟨ID, VER, [], SA, []⟩) =
        some ⟨ID, VER, [], b64encode SA, []⟩ := by
      rw [htext]
      simp only [findStringSubmatch,
        splitOn_dollar_encode ['v' :: '=' :: VER, b64encode SA] ID
          (by intro s hs; rcases List.mem_cons.mp hs with rfl | hs
              · exact hdV
              · rcases List.mem_cons.mp hs with rfl | hs
                · exact dollar_not_mem_b64encode SA
                · simp at hs) hdID]
      simp only [hid, if_true, takeVersion, versionSegParse_version hV hver,
        takeParams, paramsSegOK_b64 (b64encode_all_b64 SA), Bool.false_eq_true, if_false,
        matchSaltHash, b64SegOK_encode hS, if_true]
    have hBSe : (b64encode SA).isEmpty = false := by
      simpa [List.isEmpty_iff] using b64encode_ne_nil hS
    have hum : unmarshalText ⟨[], [], [], [], []⟩ (formatString ⟨ID, VER, [], SA, []⟩) =
        (⟨ID, VER, [], SA, []⟩, none) := by
      simp only [unmarshalText, hfind, List.isEmpty_nil, if_true, hBSe,
        Bool.false_eq_true, if_false, b64decode_b64encode hsa]
    simp only [phcDecode, hum]
  -- branch V≠[] P=[] S≠[] H≠[]
  · subst hP
    have hVe : VER.isEmpty = false := by simpa [List.isEmpty_iff] using hV
    have hSe : SA.isEmpty = false := by simpa [List.isEmpty_iff] using hS
    have hHe : HA.isEmpty = false := by simpa [List.isEmpty_iff] using hH
    have htext : formatString ⟨ID, VER, [], SA, HA⟩ = '$' :: (ID ++
        (List.map (fun s => '$' :: s)
          ['v' :: '=' :: VER, b64encode SA, b64encode HA]).flatten) := by
      simp [formatString, hVe, hSe, hHe]
    have hfind : findStringSubmatch (formatString ⟨ID, VER, [], SA, HA⟩) =
        some ⟨ID, VER, [], b64encode SA, b64encode HA⟩ := by
      rw [htext]
      simp only [findStringSubmatch,
        splitOn_dollar_encode ['v' :: '=' :: VER, b64encode SA, b64encode HA] ID
          (by intro s hs; rcases List.mem_cons.mp hs with rfl | hs
              · exact hdV
              · rcases List.mem_cons.mp hs with rfl | hs
                · exact dollar_not_mem_b64encode SA
                · rcases List.mem_cons.mp hs with rfl | hs
                  · exact dollar_not_mem_b64encode HA
                  · simp at hs) hdID]
      simp only [hid, if_true, takeVersion, versionSegParse_version hV hver,
        takeParams, paramsSegOK_b64 (b64encode_all_b64 SA), Bool.false_eq_true, if_false,
        matchSaltHash, b64SegOK_encode hS, b64SegOK_encode hH, Bool.and_self, if_true]
    have hBSe : (b64encode SA).isEmpty = false := by
      simpa [List.isEmpty_iff] using b64encode_ne_nil hS
    have hBHe : (b64encode HA).isEmpty = false := by
      simpa [List.isEmpty_iff] using b64encode_ne_nil hH
    have hum : unmarshalText ⟨[], [], [], [], []⟩ (formatString ⟨ID, VER, [], SA, HA⟩) =
        (⟨ID, VER, [], SA, HA⟩, none) := by
      simp only [unmarshalText, hfind, List.isEmpty_nil, if_true, hBSe, hBHe,
        Bool.false_eq_true, if_false, b64decode_b64encode hsa, b64decode_b64encode hha]
    simp only [phcDecode, hum]
  -- branch V≠[] P≠[] S=[] H=[]
  · subst hS hH
    have hVe : VER.isEmpty = false := by simpa [List.isEmpty_iff] using hV
    have hPe : PS.isEmpty = false := by simpa [List.isEmpty_iff] using hP
    have htext : formatString ⟨ID, VER, PS, [], []⟩ = '$' :: (ID ++
        (List.map (fun s => '$' :: s) ['v' :: '=' :: VER, joinParams PS]).flatten) := by
      simp [formatString, hVe, hPe]
    have hfind : findStringSubmatch (formatString ⟨ID, VER, PS, [], []⟩) =
        some ⟨ID, VER, joinParams PS, [], []⟩ := by
      rw [htext]
      simp only [findStringSubmatch,
        splitOn_dollar_encode ['v' :: '=' :: VER, joinParams PS] ID
          (by intro s hs; rcases List.mem_cons.mp hs with rfl | hs
              · exact hdV
              · rcases List.mem_cons.mp hs with rfl | hs
                · exact hdJ
                · simp at hs) hdID]
      simp only [hid, if_true, takeVersion, versionSegParse_version hV hver,
        takeParams, paramsSegOK_joinParams hps hP, if_true, matchSaltHash]
    have hum : unmarshalText ⟨[], [], [], [], []⟩ (formatString ⟨ID, VER, PS, [], []⟩) =
        (⟨ID, VER, PS, [], []⟩, none) := by
      simp only [unmarshalText, hfind, hJe hP, Bool.false_eq_true, if_false,
        List.isEmpty_nil, if_true, parseParams_joinParams hps hP]
    simp only [phcDecode, hum]
  -- branch V≠[] P≠[] S=[] H≠[]
  · exfalso
    subst hS
    simp [List.isEmpty_iff, hH] at hsh2
  -- branch V≠[] P≠[] S≠[] H=[]
  · subst hH
    have hVe : VER.isEmpty = false := by simpa [List.isEmpty_iff] using hV
    have hPe : PS.isEmpty = false := by simpa [List.isEmpty_iff] using hP
    have hSe : SA.isEmpty = false := by simpa [List.isEmpty_iff] using hS
    have htext : formatString ⟨ID, VER, PS, SA, []⟩ = '$' :: (ID ++
        (List.map (fun s => '$' :: s)
          ['v' :: '=' :: VER, joinParams PS, b64encode SA]).flatten) := by
      simp [formatString, hVe, hPe, hSe]
    have hfind : findStringSubmatch (formatString ⟨ID, VER, PS, SA, []⟩) =
        some ⟨ID, VER, joinParams PS, b64encode SA, []⟩ := by
      rw [htext]
      simp only [findStringSubmatch,
        splitOn_dollar_encode ['v' :: '=' :: VER, joinParams PS, b64encode SA] ID
          (by intro s hs; rcases List.mem_cons.mp hs with rfl | hs
              · exact hdV
              · rcases List.mem_cons.mp hs with rfl | hs
                · exact hdJ
                · rcases List.mem_cons.mp hs with rfl | hs
                  · exact dollar_not_mem_b64encode SA
                  · simp at hs) hdID]
      simp only [hid, if_true, takeVersion, versionSegParse_version hV hver,
        takeParams, paramsSegOK_joinParams hps hP, if_true,
        matchSaltHash, b64SegOK_encode hS]
    have hBSe : (b64encode SA).isEmpty = false := by
      simpa [List.isEmpty_iff] using b64encode_ne_nil hS
    have hum : unmarshalText ⟨[], [], [], [], []⟩ (formatString ⟨ID, VER, PS, SA, []⟩) =
        (⟨ID, VER, PS, SA, []⟩, none) := by
      simp only [unmarshalText, hfind, hJe hP, hBSe, Bool.false_eq_true, if_false,
        List.isEmpty_nil, if_true, parseParams_joinParams hps hP, b64decode_b64encode hsa]
    simp only [phcDecode, hum]
  -- branch V≠[] P≠[] S≠[] H≠[]
  · have hVe : VER.isEmpty = false := by simpa [List.isEmpty_iff] using hV
    have hPe : PS.isEmpty = false := by simpa [List.isEmpty_iff] using hP
    have hSe : SA.isEmpty = false := by simpa [List.isEmpty_iff] using hS
    have hHe : HA.isEmpty = false := by simpa [List.isEmpty_iff] using hH
    have htext : formatString ⟨ID, VER, PS, SA, HA⟩ = '$' :: (ID ++
        (List.map (fun s => '$' :: s)
          ['v' :: '=' :: VER, joinParams PS, b64encode SA, b64encode HA]).flatten) := by
      simp [formatString, hVe, hPe, hSe, hHe]
    have hfind : findStringSubmatch (formatString ⟨ID, VER, PS, SA, HA⟩) =
        some ⟨ID, VER, joinParams PS, b64encode SA, b64encode HA⟩ := by
      rw [htext]
      simp only [findStringSubmatch,
        splitOn_dollar_encode
          ['v' :: '=' :: VER, joinParams PS, b64encode SA, b64encode HA] ID
          (by intro s hs; rcases List.mem_cons.mp hs with rfl | hs
              · exact hdV
              · rcases List.mem_cons.mp hs with rfl | hs
                · exact hdJ
                · rcases List.mem_cons.mp hs with rfl | hs
                  · exact dollar_not_mem_b64encode SA
                  · rcases List.mem_cons.mp hs with rfl | hs
                    · exact dollar_not_mem_b64encode HA
                    · simp at hs) hdID]
      simp only [hid, if_true, takeVersion, versionSegParse_version hV hver,
        takeParams, paramsSegOK_joinParams hps hP, if_true,
        matchSaltHash, b64SegOK_encode hS, b64SegOK_encode hH, Bool.and_self]
    have hBSe : (b64encode SA).isEmpty = false := by
      simpa [List.isEmpty_iff] using b64encode_ne_nil hS
    have hBHe : (b64encode HA).isEmpty = false := by
      simpa [List.isEmpty_iff] using b64encode_ne_nil hH
    have hum : unmarshalText ⟨[], [], [], [], []⟩ (formatString ⟨ID, VER, PS, SA, HA⟩) =
        (⟨ID, VER, PS, SA, HA⟩, none) := by
      simp only [unmarshalText, hfind, hJe hP, hBSe, hBHe, Bool.false_eq_true, if_false,
        parseParams_joinParams hps hP, b64decode_b64encode hsa, b64decode_b64encode hha]
    simp only [phcDecode, hum]

end Phc

namespace Phc

/-- C1 (counterexample): the round-trip claim fails as stated. The
record with id a, empty version and the single parameter v=19 is
structurally valid, but its encoding is the string with a version
segment, which decodes to a different record (version 19, no
parameters). -/
theorem c1_counterexample :
    validRecord { ID := "a".data, Version := [],
                  Params := [{ Name := "v".data, Value := "19".data }],
                  Salt := [], Hash := [] } = true ∧
    phcDecode (formatString { ID := "a".data, Version := [],
                              Params := [{ Name := "v".data, Value := "19".data }],
                              Salt := [], Hash := [] }) ≠
      Except.ok { ID := "a".data, Version := [],
                  Params := [{ Name := "v".data, Value := "19".data }],
                  Salt := [], Hash := [] } := by
  decide

/-- C1 (witness): the amended round-trip theorem applied to a
concrete valid, unshadowed record. -/
theorem c1_roundtrip_amended_witness :
    validRecord { ID := "argon2id".data, Version := "19".data,
                  Params := [{ Name := "m".data, Value := "65536".data }],
                  Salt := [1, 2], Hash := [3, 4, 5] } = true ∧
    versionShadowed { ID := "argon2id".data, Version := "19".data,
                      Params := [{ Name := "m".data, Value := "65536".data }],
                      Salt := [1, 2], Hash := [3, 4, 5] } = false ∧
    phcDecode (formatString { ID := "argon2id".data, Version := "19".data,
                              Params := [{ Name := "m".data, Value := "65536".data }],
                              Salt := [1, 2], Hash := [3, 4, 5] }) =
      Except.ok { ID := "argon2id".data, Version := "19".data,
                  Params := [{ Name := "m".data, Value := "65536".data }],
                  Salt := [1, 2], Hash := [3, 4, 5] } :=
  ⟨by decide, by decide,
    c1_roundtrip_amended _ (by decide) (by decide)⟩

end Phc

namespace Phc

theorem versionSegParse_some_shape {seg ds : List Char} (h : versionSegParse seg = some ds) :
    seg = 'v' :: '=' :: ds ∧ ds ≠ [] ∧ ds.all isDigitChar = true := by
  match seg with
  | [] => simp [versionSegParse] at h
  | [a] => simp [versionSegParse] at h
  | a :: b :: ds' =>
    simp only [versionSegParse] at h
    split at h
    · next hcond =>
      simp only [Bool.and_eq_true, beq_iff_eq] at hcond
      obtain ⟨⟨⟨ha, hb⟩, hne⟩, hdig⟩ := hcond
      simp only [Option.some.injEq] at h
      subst h
      exact ⟨by rw [ha, hb], by simpa using hne, hdig⟩
    · exact absurd h (by simp)

theorem takeVersion_eq {segs : List (List Char)} {ver : List Char} {segs1 : List (List Char)}
    (h : takeVersion segs = (ver, segs1)) :
    (ver = [] ∧ segs1 = segs) ∨
    (ver ≠ [] ∧ ver.all isDigitChar = true ∧ segs = ('v' :: '=' :: ver) :: segs1) := by
  cases segs with
  | nil =>
    simp only [takeVersion, Prod.mk.injEq] at h
    exact Or.inl ⟨h.1.symm, h.2.symm⟩
  | cons s r =>
    simp only [takeVersion] at h
    cases hvp : versionSegParse s with
    | none =>
      rw [hvp] at h
      simp only [Prod.mk.injEq] at h
      exact Or.inl ⟨h.1.symm, h.2.symm⟩
    | some ds =>
      rw [hvp] at h
      simp only [Prod.mk.injEq] at h
      obtain ⟨hshape, hne, hdig⟩ := versionSegParse_some_shape hvp
      obtain ⟨h1, h2⟩ := h
      subst h1
      subst h2
      exact Or.inr ⟨hne, hdig, by rw [hshape]⟩

theorem takeParams_eq {segs : List (List Char)} {pars : List Char} {segs2 : List (List Char)}
    (h : takeParams segs = (pars, segs2)) :
    (pars = [] ∧ segs2 = segs) ∨ (paramsSegOK pars = true ∧ segs = pars :: segs2) := by
  cases segs with
  | nil =>
    simp only [takeParams, Prod.mk.injEq] at h
    exact Or.inl ⟨h.1.symm, h.2.symm⟩
  | cons s r =>
    simp only [takeParams] at h
    by_cases hok : paramsSegOK s = true
    · rw [if_pos hok] at h
      simp only [Prod.mk.injEq] at h
      obtain ⟨h1, h2⟩ := h
      subst h1
      subst h2
      exact Or.inr ⟨hok, rfl⟩
    · rw [if_neg hok] at h
      simp only [Prod.mk.injEq] at h
      exact Or.inl ⟨h.1.symm, h.2.symm⟩

theorem b64SegOK_ne_nil {s : List Char} (h : b64SegOK s = true) : s ≠ [] := by
  simp only [b64SegOK, Bool.and_eq_true] at h
  simpa using h.1

theorem matchSaltHash_eq {segs : List (List Char)} {salt hash : List Char}
    (h : matchSaltHash segs = some (salt, hash)) :
    (segs = [] ∧ salt = [] ∧ hash = []) ∨
    (segs = [salt] ∧ b64SegOK salt = true ∧ hash = []) ∨
    (segs = [salt, hash] ∧ b64SegOK salt = true ∧ b64SegOK hash = true) := by
  match segs with
  | [] =>
    simp only [matchSaltHash, Option.some.injEq, Prod.mk.injEq] at h
    exact Or.inl ⟨rfl, h.1.symm, h.2.symm⟩
  | [a] =>
    simp only [matchSaltHash] at h
    split at h
    · next hok =>
      simp only [Option.some.injEq, Prod.mk.injEq] at h
      obtain ⟨h1, h2⟩ := h
      subst h1
      subst h2
      exact Or.inr (Or.inl ⟨rfl, hok, rfl⟩)
    · exact absurd h (by simp)
  | [a, b] =>
    simp only [matchSaltHash] at h
    split at h
    · next hok =>
      simp only [Bool.and_eq_true] at hok
      simp only [Option.some.injEq, Prod.mk.injEq] at h
      obtain ⟨h1, h2⟩ := h
      subst h1
      subst h2
      exact Or.inr (Or.inr ⟨rfl, hok.1, hok.2⟩)
    · exact absurd h (by simp)
  | a :: b :: c :: r => simp [matchSaltHash] at h

theorem joinParams_eq_joinWith (ps : List Parameter) :
    joinParams ps = joinWith ',' (ps.map (fun p => p.Name ++ '=' :: p.Value)) := by
  induction ps using joinParams.induct with
  | case1 => rfl
  | case2 p => rfl
  | case3 p q ps ih => simp only [joinParams, List.map, joinWith, ih]

theorem parseParam_recon {part : List Char} (h : paramOK part = true) :
    ((splitOn '=' part).headD []) ++ '=' :: (((splitOn '=' part).drop 1).headD []) = part := by
  have hj := joinWith_splitOn '=' part
  rcases hsp : splitOn '=' part with _ | ⟨n, _ | ⟨v, rest⟩⟩
  · exact absurd hsp (splitOn_ne_nil '=' part)
  · simp only [paramOK, hsp] at h
    exact absurd h Bool.false_ne_true
  · cases rest with
    | nil =>
      rw [hsp] at hj
      simpa [joinWith] using hj
    | cons w ws =>
      simp only [paramOK, hsp] at h
      exact absurd h Bool.false_ne_true

theorem map_eq_self {α : Type} {l : List α} {f : α → α} (h : ∀ x ∈ l, f x = x) :
    l.map f = l := by
  induction l with
  | nil => rfl
  | cons a l ih => simp [h a (by simp), ih (fun x hx => h x (by simp [hx]))]

theorem joinParams_parseParams {seg : List Char} (h : paramsSegOK seg = true) :
    joinParams (parseParams seg) = seg := by
  rw [parseParams, joinParams_eq_joinWith, List.map_map]
  rw [paramsSegOK, List.all_eq_true] at h
  conv_rhs => rw [← joinWith_splitOn ',' seg]
  congr 1
  apply map_eq_self
  intro part hp
  simp only [Function.comp_apply]
  exact parseParam_recon (h part hp)

theorem parseParams_ne_nil (seg : List Char) : parseParams seg ≠ [] := by
  rw [parseParams]
  intro hm
  exact splitOn_ne_nil ',' seg (List.map_eq_nil_iff.mp hm)

end Phc

namespace Phc

theorem paramsSegOK_nil : paramsSegOK ([] : List Char) = false := by decide

theorem findStringSubmatch_shape {text : List Char} {g : Groups}
    (hm : findStringSubmatch text = some g) :
    idOK g.id = true ∧
    (g.version ≠ [] → g.version.all isDigitChar = true) ∧
    (g.params ≠ [] → paramsSegOK g.params = true) ∧
    (g.salt ≠ [] → b64SegOK g.salt = true) ∧
    (g.hash ≠ [] → b64SegOK g.hash = true) ∧
    (g.hash ≠ [] → g.salt ≠ []) ∧
    text = '$' :: joinWith '$' (g.id ::
      ((if g.version.isEmpty then [] else ['v' :: '=' :: g.version]) ++
       (if g.params.isEmpty then [] else [g.params]) ++
       (if g.salt.isEmpty then [] else
         if g.hash.isEmpty then [g.salt] else [g.salt, g.hash]))) := by
  match text with
  | [] => simp [findStringSubmatch] at hm
  | c :: rest =>
    simp only [findStringSubmatch] at hm
    by_cases hc : c = '$'
    · rw [if_pos hc] at hm
      subst hc
      cases hss : splitOn '$' rest with
      | nil => exact absurd hss (splitOn_ne_nil '$' rest)
      | cons idSeg segs =>
        rw [hss] at hm
        simp only [] at hm
        by_cases hid : idOK idSeg = true
        · rw [if_pos hid] at hm
          rcases htv : takeVersion segs with ⟨ver, segs1⟩
          rcases htp : takeParams segs1 with ⟨pars, segs2⟩
          simp only [htv, htp] at hm
          cases hms : matchSaltHash segs2 with
          | none => rw [hms] at hm; simp at hm
          | some sh =>
            rcases sh with ⟨salt, hash⟩
            rw [hms] at hm
            simp only [Option.some.injEq] at hm
            subst hm
            have hrest : joinWith '$' (idSeg :: segs) = rest := by
              rw [← hss]
              exact joinWith_splitOn '$' rest
            rcases takeVersion_eq htv with ⟨rfl, rfl⟩ | ⟨hvne, hvd, rfl⟩ <;>
              rcases takeParams_eq htp with ⟨rfl, rfl⟩ | ⟨hpok, rfl⟩ <;>
              rcases matchSaltHash_eq hms with ⟨rfl, rfl, rfl⟩ | ⟨rfl, hsok, rfl⟩ |
                ⟨rfl, hsok, hhok⟩
            · exact ⟨hid, by simp, by simp, by simp, by simp, by simp, by
                rw [← hrest]; simp [joinWith]⟩
            · refine ⟨hid, by simp, by simp, fun _ => hsok, by simp,
                fun hh => b64SegOK_ne_nil hsok, ?_⟩
              rw [← hrest]
              simp [joinWith, List.isEmpty_iff, b64SegOK_ne_nil hsok]
            · refine ⟨hid, by simp, by simp, fun _ => hsok, fun _ => hhok,
                fun _ => b64SegOK_ne_nil hsok, ?_⟩
              rw [← hrest]
              simp [joinWith, List.isEmpty_iff, b64SegOK_ne_nil hsok, b64SegOK_ne_nil hhok]
            · have hpne : pars ≠ [] := by
                intro he
                rw [he] at hpok
                exact absurd hpok (by rw [paramsSegOK_nil]; simp)
              refine ⟨hid, by simp, fun _ => hpok, by simp, by simp, by simp, ?_⟩
              rw [← hrest]
              simp [joinWith, List.isEmpty_iff, hpne]
            · have hpne : pars ≠ [] := by
                intro he
                rw [he] at hpok
                exact absurd hpok (by rw [paramsSegOK_nil]; simp)
              refine ⟨hid, by simp, fun _ => hpok, fun _ => hsok, by simp,
                fun _ => b64SegOK_ne_nil hsok, ?_⟩
              rw [← hrest]
              simp [joinWith, List.isEmpty_iff, hpne, b64SegOK_ne_nil hsok]
            · have hpne : pars ≠ [] := by
                intro he
                rw [he] at hpok
                exact absurd hpok (by rw [paramsSegOK_nil]; simp)
              refine ⟨hid, by simp, fun _ => hpok, fun _ => hsok, fun _ => hhok,
                fun _ => b64SegOK_ne_nil hsok, ?_⟩
              rw [← hrest]
              simp [joinWith, List.isEmpty_iff, hpne, b64SegOK_ne_nil hsok,
                b64SegOK_ne_nil hhok]
            · refine ⟨hid, fun _ => hvd, by simp, by simp, by simp, by simp, ?_⟩
              rw [← hrest]
              simp [joinWith, List.isEmpty_iff, hvne]
            · refine ⟨hid, fun _ => hvd, by simp, fun _ => hsok, by simp,
                fun _ => b64SegOK_ne_nil hsok, ?_⟩
              rw [← hrest]
              simp [joinWith, List.isEmpty_iff, hvne, b64SegOK_ne_nil hsok]
            · refine ⟨hid, fun _ => hvd, by simp, fun _ => hsok, fun _ => hhok,
                fun _ => b64SegOK_ne_nil hsok, ?_⟩
              rw [← hrest]
              simp [joinWith, List.isEmpty_iff, hvne, b64SegOK_ne_nil hsok,
                b64SegOK_ne_nil hhok]
            · have hpne : pars ≠ [] := by
                intro he
                rw [he] at hpok
                exact absurd hpok (by rw [paramsSegOK_nil]; simp)
              refine ⟨hid, fun _ => hvd, fun _ => hpok, by simp, by simp, by simp, ?_⟩
              rw [← hrest]
              simp [joinWith, List.isEmpty_iff, hvne, hpne]
            · have hpne : pars ≠ [] := by
                intro he
                rw [he] at hpok
                exact absurd hpok (by rw [paramsSegOK_nil]; simp)
              refine ⟨hid, fun _ => hvd, fun _ => hpok, fun _ => hsok, by simp,
                fun _ => b64SegOK_ne_nil hsok, ?_⟩
              rw [← hrest]
              simp [joinWith, List.isEmpty_iff, hvne, hpne, b64SegOK_ne_nil hsok]
            · have hpne : pars ≠ [] := by
                intro he
                rw [he] at hpok
                exact absurd hpok (by rw [paramsSegOK_nil]; simp)
              refine ⟨hid, fun _ => hvd, fun _ => hpok, fun _ => hsok, fun _ => hhok,
                fun _ => b64SegOK_ne_nil hsok, ?_⟩
              rw [← hrest]
              simp [joinWith, List.isEmpty_iff, hvne, hpne, b64SegOK_ne_nil hsok,
                b64SegOK_ne_nil hhok]
        · rw [if_neg hid] at hm
          simp at hm
    · rw [if_neg hc] at hm
      exact absurd hm (by simp)

end Phc

namespace Phc

theorem phcDecode_groups {s : List Char} {g : Groups} {f : Format}
    (hm : findStringSubmatch s = some g) (hd : phcDecode s = Except.ok f) :
    f.ID = g.id ∧ f.Version = g.version ∧
    f.Params = (if g.params.isEmpty then [] else parseParams g.params) ∧
    ((g.salt = [] ∧ f.Salt = [] ∧ f.Hash = []) ∨
     (g.salt ≠ [] ∧ b64decode g.salt = some f.Salt ∧
       ((g.hash = [] ∧ f.Hash = []) ∨ (g.hash ≠ [] ∧ b64decode g.hash = some f.Hash)))) := by
  simp only [phcDecode, unmarshalText, hm] at hd
  by_cases hse : g.salt.isEmpty = true
  · rw [if_pos hse] at hd
    simp only [Except.ok.injEq] at hd
    subst hd
    simp [List.isEmpty_iff.mp hse]
  · rw [if_neg hse] at hd
    have hsne : g.salt ≠ [] := by simpa [List.isEmpty_iff] using hse
    cases hsb : b64decode g.salt with
    | none => rw [hsb] at hd; simp at hd
    | some sb =>
      rw [hsb] at hd
      simp only [] at hd
      by_cases hhe : g.hash.isEmpty = true
      · rw [if_pos hhe] at hd
        simp only [Except.ok.injEq] at hd
        subst hd
        exact ⟨rfl, rfl, rfl, Or.inr ⟨hsne, rfl, Or.inl ⟨List.isEmpty_iff.mp hhe, rfl⟩⟩⟩
      · rw [if_neg hhe] at hd
        have hhne : g.hash ≠ [] := by simpa [List.isEmpty_iff] using hhe
        cases hhb : b64decode g.hash with
        | none => rw [hhb] at hd; simp at hd
        | some hb =>
          rw [hhb] at hd
          simp only [] at hd
          simp only [Except.ok.injEq] at hd
          subst hd
          exact ⟨rfl, rfl, rfl, Or.inr ⟨hsne, rfl, Or.inr ⟨hhne, rfl⟩⟩⟩

end Phc

namespace Phc

/-- C2 (amended): a string accepted by decode is reproduced exactly by
re-encoding the decoded record, provided the salt and hash segments of
the string are canonical base64, that is, re-encoding the decoded
bytes yields the segment back. (Decode also accepts segments whose
final quantum carries non-zero unused trailing bits; those are the
only accepted strings that re-encode differently.) -/
theorem c2_encode_decode_amended (s : List Char) (g : Groups) (f : Format)
    (hm : findStringSubmatch s = some g) (hd : phcDecode s = Except.ok f)
    (hcs : g.salt ≠ [] → b64encode f.Salt = g.salt)
    (hch : g.hash ≠ [] → b64encode f.Hash = g.hash) :
    formatString f = s := by
  obtain ⟨hid, hvd, hpok, hsok, hhok, hhs, hrec⟩ := findStringSubmatch_shape hm
  obtain ⟨hfid, hfver, hfpar, hrest⟩ := phcDecode_groups hm hd
  rw [hrec]
  have hparfacts : (f.Params.isEmpty = g.params.isEmpty) ∧
      (g.params.isEmpty = false → joinParams f.Params = g.params) := by
    by_cases hp : g.params.isEmpty = true
    · rw [hfpar, if_pos hp, hp]
      simp
    · have hpne : g.params ≠ [] := by simpa [List.isEmpty_iff] using hp
      rw [hfpar, if_neg hp]
      constructor
      · simp only [Bool.not_eq_true] at hp
        rw [hp]
        simpa [List.isEmpty_iff] using parseParams_ne_nil g.params
      · intro _
        exact joinParams_parseParams (hpok hpne)
  rcases hrest with ⟨hsnil, hfsalt, hfhash⟩ | ⟨hsne, hsb, hrest2⟩
  · have hhnil : g.hash = [] := by
      by_contra hh
      exact (hhs hh) hsnil
    by_cases hp : g.params.isEmpty = true <;> by_cases hv : g.version.isEmpty = true <;>
      simp [formatString, joinWith, hfid, hfver, hfsalt, hfhash, hsnil, hhnil, hp, hv,
        hparfacts.1, hparfacts.2]
  · have hfsne : f.Salt ≠ [] := b64decode_ne_nil hsb hsne
    have hbs : b64encode f.Salt = g.salt := hcs hsne
    rcases hrest2 with ⟨hhnil, hfhash⟩ | ⟨hhne, hhb⟩
    · by_cases hp : g.params.isEmpty = true <;> by_cases hv : g.version.isEmpty = true <;>
        simp [formatString, joinWith, hfid, hfver, hfhash, hhnil, hp, hv,
          hparfacts.1, hparfacts.2, List.isEmpty_iff, hsne, hfsne, hbs]
    · have hfhne : f.Hash ≠ [] := b64decode_ne_nil hhb hhne
      have hbh : b64encode f.Hash = g.hash := hch hhne
      by_cases hp : g.params.isEmpty = true <;> by_cases hv : g.version.isEmpty = true <;>
        simp [formatString, joinWith, hfid, hfver, hp, hv,
          hparfacts.1, hparfacts.2, List.isEmpty_iff, hsne, hfsne, hbs, hhne, hfhne, hbh]

/-- C2 (counterexample): the round-trip claim fails as stated. The
string with salt segment QR is accepted by decode because the Go
base64 decoder discards the non-zero unused trailing bits of the final
quantum, yielding the byte 65, and re-encoding writes the canonical
segment QQ instead. -/
theorem c2_counterexample :
    phcDecode "$a$QR".data =
      Except.ok { ID := "a".data, Version := [], Params := [], Salt := [65], Hash := [] } ∧
    formatString { ID := "a".data, Version := [], Params := [], Salt := [65], Hash := [] } ≠
      "$a$QR".data := by
  decide

/-- C2 (witness): the amended theorem applied to a concrete accepted
string whose base64 segments are canonical. -/
theorem c2_encode_decode_amended_witness :
    findStringSubmatch "$argon2id$v=19$m=65536,t=2,p=1$QQ$QQQQ".data =
      some { id := "argon2id".data, version := "19".data,
             params := "m=65536,t=2,p=1".data, salt := "QQ".data, hash := "QQQQ".data } ∧
    phcDecode "$argon2id$v=19$m=65536,t=2,p=1$QQ$QQQQ".data =
      Except.ok { ID := "argon2id".data, Version := "19".data,
                  Params := [{ Name := "m".data, Value := "65536".data },
                             { Name := "t".data, Value := "2".data },
                             { Name := "p".data, Value := "1".data }],
                  Salt := [65], Hash := [65, 4, 16] } ∧
    formatString { ID := "argon2id".data, Version := "19".data,
                   Params := [{ Name := "m".data, Value := "65536".data },
                              { Name := "t".data, Value := "2".data },
                              { Name := "p".data, Value := "1".data }],
                   Salt := [65], Hash := [65, 4, 16] } =
      "$argon2id$v=19$m=65536,t=2,p=1$QQ$QQQQ".data :=
  ⟨by decide, by decide,
    c2_encode_decode_amended "$argon2id$v=19$m=65536,t=2,p=1$QQ$QQQQ".data
      { id := "argon2id".data, version := "19".data,
        params := "m=65536,t=2,p=1".data, salt := "QQ".data, hash := "QQQQ".data }
      { ID := "argon2id".data, Version := "19".data,
        Params := [{ Name := "m".data, Value := "65536".data },
                   { Name := "t".data, Value := "2".data },
                   { Name := "p".data, Value := "1".data }],
        Salt := [65], Hash := [65, 4, 16] }
      (by decide) (by decide) (fun _ => by decide) (fun _ => by decide)⟩

end Phc

namespace Phc

/-- C3: a v= segment is a version only when its value is all digits
and the segment contains nothing else. Decoding the string whose
single extra segment is v=aparam yields an empty version and the one
parameter v with value aparam; decoding the string whose segment is
the comma list v=19,m=65536,t=2,p=1 yields an empty version and four
parameters led by v=19. -/
theorem c3_version_disambiguation :
    phcDecode "$argon2id$v=aparam".data =
      Except.ok { ID := "argon2id".data, Version := [],
                  Params := [{ Name := "v".data, Value := "aparam".data }],
                  Salt := [], Hash := [] } ∧
    phcDecode "$argon2id$v=19,m=65536,t=2,p=1".data =
      Except.ok { ID := "argon2id".data, Version := [],
                  Params := [{ Name := "v".data, Value := "19".data },
                             { Name := "m".data, Value := "65536".data },
                             { Name := "t".data, Value := "2".data },
                             { Name := "p".data, Value := "1".data }],
                  Salt := [], Hash := [] } := by
  decide

end Phc

namespace Phc

/-- C10: when UnmarshalText returns an error (regex mismatch, salt
decode failure, or hash decode failure), the receiver keeps all its
prior field values: the parsed record is assigned only after every
check has succeeded. -/
theorem c10_unmarshal_error_preserves (f : Format) (t : List Char) (e : String)
    (h : (unmarshalText f t).2 = some e) : (unmarshalText f t).1 = f := by
  simp only [unmarshalText] at h ⊢
  cases hm : findStringSubmatch t with
  | none => rfl
  | some g =>
    rw [hm] at h
    simp only [] at h ⊢
    by_cases hs : g.salt.isEmpty = true
    · rw [if_pos hs] at h
      simp at h
    · rw [if_neg hs] at h ⊢
      cases hsb : b64decode g.salt with
      | none => rfl
      | some sb =>
        rw [hsb] at h
        simp only [] at h ⊢
        by_cases hh : g.hash.isEmpty = true
        · rw [if_pos hh] at h
          simp at h
        · rw [if_neg hh] at h ⊢
          cases hhb : b64decode g.hash with
          | none => rfl
          | some hb =>
            rw [hhb] at h
            simp at h

/-- C10 (witness): a receiver with nonempty fields is unchanged by a
failing call whose salt segment passes the regex but is invalid
base64. -/
theorem c10_unmarshal_error_preserves_witness :
    (unmarshalText { ID := "x".data, Version := "7".data, Params := [],
                     Salt := [1], Hash := [2] } "$a$....".data).2 =
      some "phc: salt decoding error" ∧
    (unmarshalText { ID := "x".data, Version := "7".data, Params := [],
                     Salt := [1], Hash := [2] } "$a$....".data).1 =
      { ID := "x".data, Version := "7".data, Params := [], Salt := [1], Hash := [2] } :=
  ⟨by decide,
    c10_unmarshal_error_preserves _ _ "phc: salt decoding error" (by decide)⟩

end Phc

namespace Argon2

theorem constantTimeByteEq_spec (v : Nat) (hv : v < 256) :
    constantTimeByteEq v 0 = if v = 0 then 1 else 0 := by
  unfold constantTimeByteEq
  rw [Nat.xor_zero, Nat.shiftRight_eq_div_pow]
  rcases Nat.eq_zero_or_pos v with h | h
  · subst h; decide
  · rw [if_neg (by omega)]
    omega

theorem nat_or_eq_zero {a b : Nat} : a ||| b = 0 ↔ a = 0 ∧ b = 0 := by
  constructor
  · intro h
    have hb : ∀ i, (a.testBit i || b.testBit i) = false := by
      intro i
      have := congrArg (fun n => Nat.testBit n i) h
      simpa using this
    constructor
    · apply Nat.eq_of_testBit_eq
      intro i
      simpa using (Bool.or_eq_false_iff.mp (hb i)).1
    · apply Nat.eq_of_testBit_eq
      intro i
      simpa using (Bool.or_eq_false_iff.mp (hb i)).2
  · rintro ⟨rfl, rfl⟩
    rfl

theorem foldl_or_eq_zero (l : List (Nat × Nat)) (acc : Nat) :
    (l.foldl (fun v p => v ||| (p.1 ^^^ p.2)) acc = 0 ↔
      acc = 0 ∧ ∀ p ∈ l, p.1 = p.2) := by
  induction l generalizing acc with
  | nil => simp
  | cons q l ih =>
    simp only [List.foldl_cons, ih, nat_or_eq_zero, List.mem_cons]
    constructor
    · rintro ⟨⟨ha, hq⟩, hl⟩
      refine ⟨ha, fun p hp => ?_⟩
      rcases hp with rfl | hp
      · exact Nat.xor_eq_zero.mp hq
      · exact hl p hp
    · rintro ⟨ha, hl⟩
      exact ⟨⟨ha, Nat.xor_eq_zero.mpr (hl q (Or.inl rfl))⟩, fun p hp => hl p (Or.inr hp)⟩

theorem foldl_or_lt (l : List (Nat × Nat)) (acc : Nat)
    (hl : ∀ p ∈ l, p.1 < 256 ∧ p.2 < 256) (ha : acc < 256) :
    l.foldl (fun v p => v ||| (p.1 ^^^ p.2)) acc < 256 := by
  induction l generalizing acc with
  | nil => simpa using ha
  | cons q l ih =>
    simp only [List.foldl_cons]
    apply ih
    · exact fun p hp => hl p (List.mem_cons_of_mem q hp)
    · have hq := hl q (List.mem_cons_self q l)
      have hx : q.1 ^^^ q.2 < 256 :=
        Nat.xor_lt_two_pow (n := 8) (by omega) (by omega)
      have := Nat.or_lt_two_pow (n := 8) ha hx
      omega

theorem zip_pointwise_eq : ∀ (x y : List Nat), x.length = y.length →
    ((∀ p ∈ x.zip y, p.1 = p.2) ↔ x = y)
  | [], [], _ => by simp
  | [], b :: ys, h => by simp at h
  | a :: xs, [], h => by simp at h
  | a :: xs, b :: ys, h => by
    have ih := zip_pointwise_eq xs ys (by simpa using h)
    simp only [List.zip_cons_cons, List.mem_cons, List.cons.injEq]
    constructor
    · intro hall
      exact ⟨hall (a, b) (Or.inl rfl), ih.mp (fun p hp => hall p (Or.inr hp))⟩
    · rintro ⟨rfl, rfl⟩
      intro p hp
      rcases hp with rfl | hp
      · rfl
      · exact ih.mpr rfl p hp

/-- C9: subtle.ConstantTimeCompare is a length-exact comparator:
zero on a length mismatch, one exactly when the byte sequences are
equal; and its loop iteration count depends only on the input lengths,
never on the position of the first differing byte. -/
theorem c9_constant_time_compare (x y : List Nat)
    (hx : x.all (fun b => b < 256) = true) (hy : y.all (fun b => b < 256) = true) :
    (x.length ≠ y.length → constantTimeCompare x y = 0) ∧
    (constantTimeCompare x y = 1 ↔ x = y) ∧
    (∀ x' y' : List Nat, x'.length = x.length → y'.length = y.length →
      constantTimeCompareSteps x' y' = constantTimeCompareSteps x y) := by
  simp only [List.all_eq_true, decide_eq_true_eq] at hx hy
  refine ⟨fun hne => by simp [constantTimeCompare, hne], ?_, ?_⟩
  · by_cases hlen : x.length = y.length
    · have hzip : ∀ p ∈ x.zip y, p.1 < 256 ∧ p.2 < 256 := by
        intro p hp
        obtain ⟨h1, h2⟩ := List.of_mem_zip hp
        exact ⟨hx _ h1, hy _ h2⟩
      have hv := foldl_or_lt (x.zip y) 0 hzip (by omega)
      rw [constantTimeCompare, if_neg (by omega)]
      rw [constantTimeByteEq_spec _ hv]
      constructor
      · intro h1
        by_cases hz : (x.zip y).foldl (fun v p => v ||| (p.1 ^^^ p.2)) 0 = 0
        · have := (foldl_or_eq_zero (x.zip y) 0).mp hz
          exact (zip_pointwise_eq x y hlen).mp this.2
        · rw [if_neg hz] at h1
          omega
      · intro hxy
        have hz : (x.zip y).foldl (fun v p => v ||| (p.1 ^^^ p.2)) 0 = 0 :=
          (foldl_or_eq_zero (x.zip y) 0).mpr
            ⟨rfl, (zip_pointwise_eq x y hlen).mpr hxy⟩
        rw [if_pos hz]
    · rw [constantTimeCompare, if_pos hlen]
      constructor
      · omega
      · intro hxy
        exact absurd (congrArg List.length hxy) hlen
  · intro x' y' hx' hy'
    simp [constantTimeCompareSteps, hx', hy']

/-- C9 (witness): the comparator theorem applied to two concrete byte
lists of equal length differing in the last byte. -/
theorem c9_constant_time_compare_witness :
    ([1, 2] : List Nat).all (fun b => b < 256) = true ∧
    (constantTimeCompare [1, 2] [1, 3] = 1 ↔ ([1, 2] : List Nat) = [1, 3]) ∧
    constantTimeCompare [1, 2] [1, 3] = 0 :=
  ⟨by decide,
    (c9_constant_time_compare [1, 2] [1, 3] (by decide) (by decide)).2.1,
    by decide⟩

end Argon2

namespace Argon2

theorem constantTimeCompare_eq_one_iff {x y : List Nat}
    (hx : x.all (fun b => b < 256) = true) (hy : y.all (fun b => b < 256) = true) :
    (constantTimeCompare x y = 1 ↔ x = y) := by
  simp only [List.all_eq_true, decide_eq_true_eq] at hx hy
  by_cases hlen : x.length = y.length
  · have hzip : ∀ p ∈ x.zip y, p.1 < 256 ∧ p.2 < 256 := by
      intro p hp
      obtain ⟨h1, h2⟩ := List.of_mem_zip hp
      exact ⟨hx _ h1, hy _ h2⟩
    have hv := foldl_or_lt (x.zip y) 0 hzip (by omega)
    rw [constantTimeCompare, if_neg (by omega)]
    rw [constantTimeByteEq_spec _ hv]
    constructor
    · intro h1
      by_cases hz : (x.zip y).foldl (fun v p => v ||| (p.1 ^^^ p.2)) 0 = 0
      · have := (foldl_or_eq_zero (x.zip y) 0).mp hz
        exact (zip_pointwise_eq x y hlen).mp this.2
      · rw [if_neg hz] at h1
        omega
    · intro hxy
      have hz : (x.zip y).foldl (fun v p => v ||| (p.1 ^^^ p.2)) 0 = 0 :=
        (foldl_or_eq_zero (x.zip y) 0).mpr
          ⟨rfl, (zip_pointwise_eq x y hlen).mpr hxy⟩
      rw [if_pos hz]
  · rw [constantTimeCompare, if_pos hlen]
    constructor
    · omega
    · intro hxy
      exact absurd (congrArg List.length hxy) hlen

theorem argon2Decode_ok {s : List Char} {f : Phc.Format} {p : Parameters}
    (h : argon2Decode s = Except.ok (f, p)) :
    Phc.phcDecode s = Except.ok f ∧ f.ID = argon2ID ∧
    f.Version = natDecimal argon2Version ∧
    p.KeyLength = f.Hash.length ∧ f.Hash.length ≤ 4294967295 ∧
    ∃ p0 p1 p2, f.Params = [p0, p1, p2] ∧ p0.Name = "m".data ∧ p1.Name = "t".data ∧
      p2.Name = "p".data ∧ parseUint p0.Value 32 = some p.Memory ∧
      parseUint p1.Value 32 = some p.Time ∧ parseUint p2.Value 8 = some p.Parallelism := by
  simp only [argon2Decode] at h
  cases hd : Phc.phcDecode s with
  | error e => rw [hd] at h; simp at h
  | ok d =>
    rw [hd] at h
    simp only [] at h
    by_cases hid : d.ID ≠ argon2ID
    · rw [if_pos hid] at h; simp at h
    · rw [if_neg hid] at h
      push_neg at hid
      by_cases hver : d.Version ≠ natDecimal argon2Version
      · rw [if_pos hver] at h; simp at h
      · rw [if_neg hver] at h
        push_neg at hver
        match hps : d.Params with
        | [] => rw [hps] at h; simp at h
        | [q] => rw [hps] at h; simp at h
        | [q, r] => rw [hps] at h; simp at h
        | q0 :: q1 :: q2 :: q3 :: qs => rw [hps] at h; simp at h
        | [p0, p1, p2] =>
          rw [hps] at h
          simp only [] at h
          by_cases hnames : p0.Name ≠ "m".data ∨ p1.Name ≠ "t".data ∨ p2.Name ≠ "p".data
          · rw [if_pos hnames] at h; simp at h
          · rw [if_neg hnames] at h
            push_neg at hnames
            cases hm : parseUint p0.Value 32 with
            | none => rw [hm] at h; simp at h
            | some mv =>
              rw [hm] at h
              cases ht : parseUint p1.Value 32 with
              | none => rw [ht] at h; simp at h
              | some tv =>
                rw [ht] at h
                cases hp : parseUint p2.Value 8 with
                | none => rw [hp] at h; simp at h
                | some pv =>
                  rw [hp] at h
                  simp only [] at h
                  by_cases hlen : d.Hash.length > 4294967295
                  · rw [if_pos hlen] at h; simp at h
                  · rw [if_neg hlen] at h
                    simp only [Except.ok.injEq, Prod.mk.injEq] at h
                    obtain ⟨hdf, hpp⟩ := h
                    subst hdf
                    subst hpp
                    exact ⟨rfl, hid, hver, rfl, by omega,
                      p0, p1, p2, hps, hnames.1, hnames.2.1, hnames.2.2, hm, ht, hp⟩

end Argon2

namespace Argon2

/-- C5: IsSame returns a boolean with no error exactly when the
encoded string decodes; for every successfully decoded string the
result is the constant-time comparison of the stored hash against the
re-derived bytes, and a non-matching derivation yields false, never an
error. -/
theorem c5_isSame_no_error_on_valid (kdf : KDF) (h : Hasher) (password : List Char) :
    (∀ s, exceptIsOk (hasherIsSame kdf h password s) = exceptIsOk (argon2Decode s)) ∧
    (∀ (s : List Char) (f : Phc.Format) (p : Parameters),
      argon2Decode s = Except.ok (f, p) →
      f.Hash.all (fun b => b < 256) = true →
      (kdf password f.Salt p.Time p.Memory p.Parallelism p.KeyLength).all
        (fun b => b < 256) = true →
      hasherIsSame kdf h password s = Except.ok
        (constantTimeCompare f.Hash
          (kdf password f.Salt p.Time p.Memory p.Parallelism p.KeyLength) == 1) ∧
      (kdf password f.Salt p.Time p.Memory p.Parallelism p.KeyLength ≠ f.Hash →
        hasherIsSame kdf h password s = Except.ok false)) := by
  constructor
  · intro s
    cases hdec : argon2Decode s with
    | error e => simp [hasherIsSame, hdec, exceptIsOk]
    | ok fp => rcases fp with ⟨f, p⟩; simp [hasherIsSame, hdec, exceptIsOk]
  · intro s f p hdec hbh hbk
    have heq : hasherIsSame kdf h password s = Except.ok
        (constantTimeCompare f.Hash
          (kdf password f.Salt p.Time p.Memory p.Parallelism p.KeyLength) == 1) := by
      simp [hasherIsSame, hdec, EncodeWithSalt, constantTimeCopy]
    refine ⟨heq, fun hne => ?_⟩
    rw [heq]
    have hiff := constantTimeCompare_eq_one_iff hbh hbk
    have hne1 : constantTimeCompare f.Hash
        (kdf password f.Salt p.Time p.Memory p.Parallelism p.KeyLength) ≠ 1 := by
      intro h1
      exact hne (hiff.mp h1).symm
    rw [beq_eq_false_iff_ne.mpr hne1]

end Argon2

namespace Argon2

/-- C6: IsSame ignores the verifying hasher's configuration: any two
hashers give identical results, because re-derivation uses exactly the
decoded salt and the decoded m, t, p with the key length equal to the
decoded hash's byte length. -/
theorem c6_isSame_config_independent (kdf : KDF) (password s : List Char) :
    (∀ h1 h2 : Hasher, hasherIsSame kdf h1 password s = hasherIsSame kdf h2 password s) ∧
    (∀ (h : Hasher) (f : Phc.Format) (p : Parameters),
      argon2Decode s = Except.ok (f, p) →
      p.KeyLength = f.Hash.length ∧
      hasherIsSame kdf h password s = Except.ok
        (constantTimeCompare f.Hash
          (kdf password f.Salt p.Time p.Memory p.Parallelism p.KeyLength) == 1)) := by
  constructor
  · intro h1 h2
    rfl
  · intro h f p hdec
    refine ⟨(argon2Decode_ok hdec).2.2.2.1, ?_⟩
    simp [hasherIsSame, hdec, EncodeWithSalt, constantTimeCopy]

theorem digitOf_isDigitChar : ∀ k < 10, Phc.isDigitChar (digitOf k) = true := by decide

theorem digitOf_ne_zero : ∀ k < 10, k ≠ 0 → digitOf k ≠ '0' := by decide

theorem natDecimalCore_all (fuel : Nat) : ∀ n, n < fuel →
    (natDecimalCore n fuel).all Phc.isDigitChar = true := by
  induction fuel with
  | zero => omega
  | succ fuel ih =>
    intro n h
    simp only [natDecimalCore]
    by_cases hlt : n < 10
    · rw [if_pos hlt]
      simp [digitOf_isDigitChar n hlt]
    · rw [if_neg hlt]
      rw [List.all_append, ih (n / 10) (by omega)]
      simp [digitOf_isDigitChar (n % 10) (by omega)]

theorem natDecimalCore_ne_nil (fuel : Nat) : ∀ n, n < fuel →
    natDecimalCore n fuel ≠ [] := by
  induction fuel with
  | zero => omega
  | succ fuel _ =>
    intro n _
    simp only [natDecimalCore]
    by_cases hlt : n < 10
    · rw [if_pos hlt]
      simp
    · rw [if_neg hlt]
      simp

theorem headD_append_of_ne_nil {a : List Char} (b : List Char) (c : Char) (h : a ≠ []) :
    (a ++ b).headD c = a.headD c := by
  obtain ⟨x, xs, rfl⟩ := List.exists_cons_of_ne_nil h
  rfl

theorem natDecimalCore_head (fuel : Nat) : ∀ n, n < fuel → n ≠ 0 →
    (natDecimalCore n fuel).headD '0' ≠ '0' := by
  induction fuel with
  | zero => omega
  | succ fuel ih =>
    intro n h hn
    simp only [natDecimalCore]
    by_cases hlt : n < 10
    · rw [if_pos hlt]
      simpa using digitOf_ne_zero n hlt hn
    · rw [if_neg hlt]
      rw [headD_append_of_ne_nil _ _ (natDecimalCore_ne_nil fuel (n / 10) (by omega))]
      exact ih (n / 10) (by omega) (by omega)

theorem natDecimal_all_digits (n : Nat) : (natDecimal n).all Phc.isDigitChar = true :=
  natDecimalCore_all (n + 1) n (by omega)

theorem natDecimal_ne_nil (n : Nat) : natDecimal n ≠ [] :=
  natDecimalCore_ne_nil (n + 1) n (by omega)

theorem natDecimal_head (n : Nat) (h : n ≠ 0) : (natDecimal n).headD '0' ≠ '0' :=
  natDecimalCore_head (n + 1) n (by omega) h

/-- C7: Hash fails exactly when the salt generator fails, wrapping
that error; on success it returns the PHC encoding of the record with
fixed id argon2id, version the decimal text of the KDF version
constant, the three parameters m, t, p carrying canonical decimal
values (digits only, nonempty, no leading zero), the generated salt
and the derived hash. -/
theorem c7_hash_spec (kdf : KDF) (h : Hasher) (password : List Char) :
    (∀ e, h.salt = Except.error e →
      hasherHash kdf h password = Except.error ("salt generation error: " ++ e)) ∧
    exceptIsOk (hasherHash kdf h password) = exceptIsOk h.salt ∧
    (∀ salt, h.salt = Except.ok salt →
      hasherHash kdf h password = Except.ok (Phc.formatString
        { ID := argon2ID
          Version := natDecimal argon2Version
          Params := [{ Name := "m".data, Value := natDecimal h.params.Memory },
                     { Name := "t".data, Value := natDecimal h.params.Time },
                     { Name := "p".data, Value := natDecimal h.params.Parallelism }]
          Salt := salt
          Hash := kdf password salt h.params.Time h.params.Memory h.params.Parallelism
            h.params.KeyLength })) ∧
    natDecimal argon2Version = "19".data ∧
    (∀ n : Nat, (natDecimal n).all Phc.isDigitChar = true ∧ natDecimal n ≠ [] ∧
      (n ≠ 0 → (natDecimal n).headD '0' ≠ '0')) := by
  refine ⟨?_, ?_, ?_, by decide,
    fun n => ⟨natDecimal_all_digits n, natDecimal_ne_nil n, natDecimal_head n⟩⟩
  · intro e he
    simp [hasherHash, he]
  · cases hs : h.salt with
    | error e => simp [hasherHash, hs, exceptIsOk]
    | ok salt => simp [hasherHash, hs, exceptIsOk, mtpParams]
  · intro salt hsalt
    simp [hasherHash, hsalt, mtpParams]

/-- C8: New with no options configures Memory 46*1024, Time 1,
Parallelism 1, KeyLength 32 and a generator reading 16 bytes from the
randomness source; options are applied after the defaults, so a
supplied option overrides them. -/
theorem c8_new_defaults (src : List Nat) :
    (New src []).params =
      { Memory := 46 * 1024, Time := 1, Parallelism := 1, KeyLength := 32 } ∧
    (New src []).salt = NewSaltGenerator 16 src ∧
    (16 ≤ src.length →
      NewSaltGenerator 16 src = Except.ok (src.take 16) ∧ (src.take 16).length = 16) ∧
    (∀ opts : List HasherOption,
      New src opts = opts.foldl (fun h opt => opt h) (New src [])) ∧
    (∀ (p : Parameters) (opts : List HasherOption),
      (New src (opts ++ [WithParameters p])).params = p) ∧
    (∀ (g : SaltResult) (opts : List HasherOption),
      (New src (opts ++ [WithSaltGenerator g])).salt = g) := by
  refine ⟨rfl, rfl, ?_, ?_, ?_, ?_⟩
  · intro hlen
    rw [NewSaltGenerator, if_neg (by omega)]
    refine ⟨rfl, ?_⟩
    rw [List.length_take]
    omega
  · intro opts
    simp [New, List.foldl_append]
  · intro p opts
    simp [New, List.foldl_append, WithParameters]
  · intro g opts
    simp [New, List.foldl_append, WithSaltGenerator]

end Argon2

namespace Argon2

/-- C5 (witness): a concrete decodable string and a KDF whose output
differs from the stored hash: IsSame returns false with no error. -/
theorem c5_isSame_no_error_on_valid_witness :
    argon2Decode "$argon2id$v=19$m=2,t=3,p=4$QQ$QQ".data =
      Except.ok ({ ID := "argon2id".data, Version := "19".data,
                   Params := [{ Name := "m".data, Value := "2".data },
                              { Name := "t".data, Value := "3".data },
                              { Name := "p".data, Value := "4".data }],
                   Salt := [65], Hash := [65] },
                 { Memory := 2, Time := 3, Parallelism := 4, KeyLength := 1 }) ∧
    hasherIsSame (fun _ _ _ _ _ _ => [0]) ⟨⟨0, 0, 0, 0⟩, Except.error ""⟩ "pw".data
      "$argon2id$v=19$m=2,t=3,p=4$QQ$QQ".data = Except.ok false := by
  refine ⟨by decide, ?_⟩
  exact ((c5_isSame_no_error_on_valid (fun _ _ _ _ _ _ => [0])
      ⟨⟨0, 0, 0, 0⟩, Except.error ""⟩ "pw".data).2
    "$argon2id$v=19$m=2,t=3,p=4$QQ$QQ".data
    { ID := "argon2id".data, Version := "19".data,
      Params := [{ Name := "m".data, Value := "2".data },
                 { Name := "t".data, Value := "3".data },
                 { Name := "p".data, Value := "4".data }],
      Salt := [65], Hash := [65] }
    { Memory := 2, Time := 3, Parallelism := 4, KeyLength := 1 }
    (by decide) (by decide) (by decide)).2 (by decide)

/-- C6 (witness): two hashers with different parameters and salt
generators agree on a concrete verification, and the bound key length
equals the decoded hash length. -/
theorem c6_isSame_config_independent_witness :
    hasherIsSame (fun _ _ _ _ _ _ => [0]) ⟨⟨1, 2, 3, 4⟩, Except.ok [9]⟩ "pw".data
      "$argon2id$v=19$m=2,t=3,p=4$QQ$QQ".data =
    hasherIsSame (fun _ _ _ _ _ _ => [0]) ⟨⟨5, 6, 7, 8⟩, Except.error "x"⟩ "pw".data
      "$argon2id$v=19$m=2,t=3,p=4$QQ$QQ".data ∧
    ({ Memory := 2, Time := 3, Parallelism := 4, KeyLength := 1 } : Parameters).KeyLength =
      ([65] : List Nat).length := by
  constructor
  · exact (c6_isSame_config_independent (fun _ _ _ _ _ _ => [0]) "pw".data
      "$argon2id$v=19$m=2,t=3,p=4$QQ$QQ".data).1 _ _
  · exact (((c6_isSame_config_independent (fun _ _ _ _ _ _ => [0]) "pw".data
      "$argon2id$v=19$m=2,t=3,p=4$QQ$QQ".data).2
      ⟨⟨0, 0, 0, 0⟩, Except.error ""⟩
      { ID := "argon2id".data, Version := "19".data,
        Params := [{ Name := "m".data, Value := "2".data },
                   { Name := "t".data, Value := "3".data },
                   { Name := "p".data, Value := "4".data }],
        Salt := [65], Hash := [65] }
      { Memory := 2, Time := 3, Parallelism := 4, KeyLength := 1 }
      (by decide)).1)

/-- C7 (witness): a hasher with a fixed salt result and a constant
KDF produces exactly the expected PHC string. -/
theorem c7_hash_spec_witness :
    hasherHash (fun _ _ _ _ _ _ => [0]) ⟨⟨46 * 1024, 1, 1, 32⟩, Except.ok [1, 2]⟩
      "pw".data = Except.ok "$argon2id$v=19$m=47104,t=1,p=1$AQI$AA".data := by
  have h := (c7_hash_spec (fun _ _ _ _ _ _ => [0])
      ⟨⟨46 * 1024, 1, 1, 32⟩, Except.ok [1, 2]⟩ "pw".data).2.2.1 [1, 2] rfl
  rw [h]
  decide

/-- C8 (witness): the defaults theorem applied to a concrete twenty
byte entropy source. -/
theorem c8_new_defaults_witness :
    16 ≤ (List.range 20).length ∧
    (New (List.range 20) []).params =
      { Memory := 46 * 1024, Time := 1, Parallelism := 1, KeyLength := 32 } ∧
    NewSaltGenerator 16 (List.range 20) = Except.ok ((List.range 20).take 16) ∧
    ((List.range 20).take 16).length = 16 :=
  ⟨by decide, (c8_new_defaults (List.range 20)).1,
   ((c8_new_defaults (List.range 20)).2.2.1 (by decide)).1,
   ((c8_new_defaults (List.range 20)).2.2.1 (by decide)).2⟩

end Argon2

namespace Argon2

theorem replicate_all {c : Char} {p : Char → Bool} (n : Nat) (hp : p c = true) :
    (List.replicate n c).all p = true := by
  induction n with
  | zero => rfl
  | succ n ih => simp [List.replicate_succ, hp, ih]

theorem replicate_isEmpty_false {c : Char} {n : Nat} (h : n ≠ 0) :
    (List.replicate n c).isEmpty = false := by
  cases n with
  | zero => omega
  | succ n => simp [List.replicate_succ]

theorem b64decode_replicate_A (k : Nat) :
    Phc.b64decode (List.replicate (4 * k) 'A') = some (List.replicate (3 * k) 0) := by
  induction k with
  | zero => rfl
  | succ k ih =>
    rw [show 4 * (k + 1) = 4 + 4 * k by ring, List.replicate_add]
    rw [show 3 * (k + 1) = 3 + 3 * k by ring, List.replicate_add]
    show Phc.b64decode ('A' :: 'A' :: 'A' :: 'A' :: List.replicate (4 * k) 'A') = _
    simp only [Phc.b64decode, show Phc.b64idx 'A' = some 0 from by decide, ih]
    rfl

theorem splitOn_sHuge :
    Phc.splitOn '$' ("argon2id".data ++ '$' :: ("v=19".data ++ '$' ::
      ("m=1,t=1,p=1".data ++ '$' :: ("AA".data ++ '$' ::
        List.replicate (4 * hugeQuantums) 'A')))) =
    ["argon2id".data, "v=19".data, "m=1,t=1,p=1".data, "AA".data,
      List.replicate (4 * hugeQuantums) 'A'] := by
  rw [Phc.splitOn_append _ (by decide)]
  rw [Phc.splitOn_append _ (by decide)]
  rw [Phc.splitOn_append _ (by decide)]
  rw [Phc.splitOn_append _ (by decide)]
  rw [Phc.splitOn_of_not_mem (by simp [List.mem_replicate])]

theorem hugeSeg_isEmpty_false : (List.replicate (4 * hugeQuantums) 'A').isEmpty = false :=
  replicate_isEmpty_false (by decide)

theorem hugeSeg_b64SegOK : Phc.b64SegOK (List.replicate (4 * hugeQuantums) 'A') = true := by
  rw [Phc.b64SegOK, hugeSeg_isEmpty_false, replicate_all _ (by decide)]
  rfl


theorem sHuge_nested : sHuge = '$' :: ("argon2id".data ++ '$' :: ("v=19".data ++ '$' ::
    ("m=1,t=1,p=1".data ++ '$' :: ("AA".data ++ '$' ::
      List.replicate (4 * hugeQuantums) 'A')))) := by
  rfl

theorem findStringSubmatch_eq (rest idSeg : List Char) (segs segs1 segs2 : List (List Char))
    (ver pars salt hash : List Char)
    (hsplit : Phc.splitOn '$' rest = idSeg :: segs)
    (hid : Phc.idOK idSeg = true)
    (htv : Phc.takeVersion segs = (ver, segs1))
    (htp : Phc.takeParams segs1 = (pars, segs2))
    (hms : Phc.matchSaltHash segs2 = some (salt, hash)) :
    Phc.findStringSubmatch ('$' :: rest) =
      some { id := idSeg, version := ver, params := pars, salt := salt, hash := hash } := by
  simp only [Phc.findStringSubmatch, if_pos rfl, hsplit]
  rw [if_pos hid]
  simp only [htv, htp, hms, if_true]

theorem findStringSubmatch_sHuge : Phc.findStringSubmatch sHuge =
    some { id := "argon2id".data, version := "19".data,
           params := "m=1,t=1,p=1".data, salt := "AA".data,
           hash := List.replicate (4 * hugeQuantums) 'A' } := by
  rw [sHuge_nested]
  refine findStringSubmatch_eq _ "argon2id".data
    ["v=19".data, "m=1,t=1,p=1".data, "AA".data, List.replicate (4 * hugeQuantums) 'A']
    ["m=1,t=1,p=1".data, "AA".data, List.replicate (4 * hugeQuantums) 'A']
    ["AA".data, List.replicate (4 * hugeQuantums) 'A']
    "19".data "m=1,t=1,p=1".data "AA".data (List.replicate (4 * hugeQuantums) 'A')
    splitOn_sHuge (by decide) ?_ ?_ ?_
  · simp only [Phc.takeVersion,
      show Phc.versionSegParse "v=19".data = some "19".data from by decide]
  · simp only [Phc.takeParams,
      show Phc.paramsSegOK "m=1,t=1,p=1".data = true from by decide, if_true]
  · simp only [Phc.matchSaltHash,
      show Phc.b64SegOK "AA".data = true from by decide, hugeSeg_b64SegOK]
    rfl

theorem unmarshalText_eq_salt_hash (f0 : Phc.Format) (text : List Char) (g : Phc.Groups)
    (sb hb : List Nat)
    (hm : Phc.findStringSubmatch text = some g)
    (hsne : g.salt.isEmpty = false) (hsb : Phc.b64decode g.salt = some sb)
    (hhne : g.hash.isEmpty = false) (hhb : Phc.b64decode g.hash = some hb) :
    Phc.unmarshalText f0 text =
      ({ ID := g.id, Version := g.version,
         Params := if g.params.isEmpty then [] else Phc.parseParams g.params,
         Salt := sb, Hash := hb }, none) := by
  simp only [Phc.unmarshalText, hm, hsne, Bool.false_eq_true, if_false, hsb]
  simp only [hhne, Bool.false_eq_true, if_false, hhb]

theorem phcDecode_sHuge : Phc.phcDecode sHuge = Except.ok fHuge := by
  have hum := unmarshalText_eq_salt_hash
    { ID := [], Version := [], Params := [], Salt := [], Hash := [] } sHuge
    { id := "argon2id".data, version := "19".data,
      params := "m=1,t=1,p=1".data, salt := "AA".data,
      hash := List.replicate (4 * hugeQuantums) 'A' }
    [0] (List.replicate (3 * hugeQuantums) 0)
    findStringSubmatch_sHuge (by decide) (by decide)
    hugeSeg_isEmpty_false (b64decode_replicate_A hugeQuantums)
  rw [Phc.phcDecode, hum]
  rfl

theorem fHuge_hash_length : fHuge.Hash.length = 4294967298 := by
  show (List.replicate (3 * hugeQuantums) 0).length = 4294967298
  rw [List.length_replicate]
  decide

theorem argon2Decode_hash_too_long (s : List Char) (f : Phc.Format)
    (p0 p1 p2 : Phc.Parameter) (m t pl : Nat)
    (hd : Phc.phcDecode s = Except.ok f)
    (hid : f.ID = argon2ID) (hver : f.Version = natDecimal argon2Version)
    (hps : f.Params = [p0, p1, p2])
    (hn0 : p0.Name = "m".data) (hn1 : p1.Name = "t".data) (hn2 : p2.Name = "p".data)
    (hm : parseUint p0.Value 32 = some m) (ht : parseUint p1.Value 32 = some t)
    (hpl : parseUint p2.Value 8 = some pl)
    (hlen : f.Hash.length > 4294967295) :
    argon2Decode s = Except.error "hash is too long" := by
  simp only [argon2Decode, hd]
  rw [if_neg (by simp [hid])]
  rw [if_neg (by simp [hver])]
  simp only [hps]
  rw [if_neg (by simp [hn0, hn1, hn2])]
  rw [hm, ht, hpl]
  simp only []
  rw [if_pos hlen]

theorem argon2Decode_sHuge : argon2Decode sHuge = Except.error "hash is too long" := by
  refine argon2Decode_hash_too_long sHuge fHuge
    { Name := "m".data, Value := "1".data }
    { Name := "t".data, Value := "1".data }
    { Name := "p".data, Value := "1".data } 1 1 1
    phcDecode_sHuge (by decide) (by decide) (by decide)
    (by decide) (by decide) (by decide) (by decide) (by decide) (by decide) ?_
  rw [fHuge_hash_length]
  omega

end Argon2

namespace Argon2

/-- C4 (counterexample): the parameter-binder claim is false as
stated. The string sHuge parses successfully with the configured id
and version and a well-formed m, t, p list, so none of the enumerated
failures holds, yet Decode returns an error because the decoded hash
is 4294967298 bytes, longer than math.MaxUint32. -/
theorem c4_counterexample : ¬ c4Statement := by
  intro hc
  have h := hc sHuge fHuge phcDecode_sHuge (by decide) (by decide)
  have herr : exceptIsOk (argon2Decode sHuge) = false := by
    rw [argon2Decode_sHuge]
    rfl
  have hschema := h.1.mp herr
  have hfalse : paramSchemaErr fHuge = false := by decide
  rw [hfalse] at hschema
  exact Bool.false_ne_true hschema

/-- C4 (amended): for every successfully parsed string with the
configured id and version, Decode errors exactly when the parameter
count is not three, the names are not m, t, p in order, a value fails
its width, or the decoded hash is longer than math.MaxUint32 bytes;
when all checks pass it binds the parsed m, t, p with the key length
equal to the decoded hash's byte length. -/
theorem c4_decode_schema_amended (s : List Char) (f : Phc.Format)
    (hd : Phc.phcDecode s = Except.ok f) (hid : f.ID = argon2ID)
    (hver : f.Version = natDecimal argon2Version) :
    (exceptIsOk (argon2Decode s) = false ↔
      (paramSchemaErr f || decide (f.Hash.length > 4294967295)) = true) ∧
    (∀ p0 p1 p2, f.Params = [p0, p1, p2] →
      p0.Name = "m".data → p1.Name = "t".data → p2.Name = "p".data →
      ∀ m t pl, parseUint p0.Value 32 = some m → parseUint p1.Value 32 = some t →
        parseUint p2.Value 8 = some pl → f.Hash.length ≤ 4294967295 →
        argon2Decode s = Except.ok (f,
          { Memory := m, Time := t, Parallelism := pl, KeyLength := f.Hash.length })) := by
  constructor
  · simp only [argon2Decode, hd]
    rw [if_neg (by simp [hid])]
    rw [if_neg (by simp [hver])]
    match hps : f.Params with
    | [] => simp [paramSchemaErr, hps, exceptIsOk]
    | [q] => simp [paramSchemaErr, hps, exceptIsOk]
    | [q, r] => simp [paramSchemaErr, hps, exceptIsOk]
    | q0 :: q1 :: q2 :: q3 :: qs => simp [paramSchemaErr, hps, exceptIsOk]
    | [p0, p1, p2] =>
      simp only []
      by_cases hnm : p0.Name = "m".data ∧ p1.Name = "t".data ∧ p2.Name = "p".data
      · rw [if_neg (by push_neg; exact ⟨hnm.1, hnm.2.1, hnm.2.2⟩)]
        rcases hm : parseUint p0.Value 32 with _ | m
        · simp [paramSchemaErr, hps, hm, hnm.1, hnm.2.1, hnm.2.2, exceptIsOk]
        · simp only []
          rcases ht : parseUint p1.Value 32 with _ | t
          · simp [paramSchemaErr, hps, hm, ht, hnm.1, hnm.2.1, hnm.2.2, exceptIsOk]
          · simp only []
            rcases hpl : parseUint p2.Value 8 with _ | pl
            · simp [paramSchemaErr, hps, hm, ht, hpl, hnm.1, hnm.2.1, hnm.2.2, exceptIsOk]
            · simp only []
              by_cases hlen : f.Hash.length > 4294967295
              · rw [if_pos hlen]
                simp [paramSchemaErr, hps, hm, ht, hpl, hnm.1, hnm.2.1, hnm.2.2,
                  exceptIsOk, hlen]
              · rw [if_neg hlen]
                simp [paramSchemaErr, hps, hm, ht, hpl, hnm.1, hnm.2.1, hnm.2.2,
                  exceptIsOk, hlen]
      · rw [if_pos (by by_contra hcon; push_neg at hcon; exact hnm ⟨hcon.1, hcon.2.1, hcon.2.2⟩)]
        have hb : (p0.Name == "m".data && p1.Name == "t".data && p2.Name == "p".data)
            = false := by
          by_contra hcon
          rw [Bool.not_eq_false] at hcon
          simp only [Bool.and_eq_true, beq_iff_eq] at hcon
          exact hnm ⟨hcon.1.1, hcon.1.2, hcon.2⟩
        have hschema : paramSchemaErr f = true := by
          rw [paramSchemaErr, hps]
          simp [hb]
        simp [exceptIsOk, hschema]
  · intro p0 p1 p2 hps hn0 hn1 hn2 m t pl hm ht hpl hlen
    simp only [argon2Decode, hd]
    rw [if_neg (by simp [hid])]
    rw [if_neg (by simp [hver])]
    simp only [hps]
    rw [if_neg (by simp [hn0, hn1, hn2])]
    rw [hm, ht, hpl]
    simp only []
    rw [if_neg (by omega)]

end Argon2

namespace Argon2

/-- C4 (witness): the amended theorem applied to a concrete valid
argon2id string. -/
theorem c4_decode_schema_amended_witness :
    Phc.phcDecode "$argon2id$v=19$m=9,t=8,p=7$QQ$QQ".data =
      Except.ok { ID := "argon2id".data, Version := "19".data,
                  Params := [{ Name := "m".data, Value := "9".data },
                             { Name := "t".data, Value := "8".data },
                             { Name := "p".data, Value := "7".data }],
                  Salt := [65], Hash := [65] } ∧
    argon2Decode "$argon2id$v=19$m=9,t=8,p=7$QQ$QQ".data =
      Except.ok ({ ID := "argon2id".data, Version := "19".data,
                   Params := [{ Name := "m".data, Value := "9".data },
                              { Name := "t".data, Value := "8".data },
                              { Name := "p".data, Value := "7".data }],
                   Salt := [65], Hash := [65] },
                 { Memory := 9, Time := 8, Parallelism := 7, KeyLength := 1 }) := by
  refine ⟨by decide, ?_⟩
  exact (c4_decode_schema_amended "$argon2id$v=19$m=9,t=8,p=7$QQ$QQ".data
      { ID := "argon2id".data, Version := "19".data,
        Params := [{ Name := "m".data, Value := "9".data },
                   { Name := "t".data, Value := "8".data },
                   { Name := "p".data, Value := "7".data }],
        Salt := [65], Hash := [65] }
      (by decide) (by decide) (by decide)).2
    { Name := "m".data, Value := "9".data }
    { Name := "t".data, Value := "8".data }
    { Name := "p".data, Value := "7".data }
    rfl rfl rfl rfl 9 8 7 (by decide) (by decide) (by decide) (by decide)

end Argon2
